import Mathlib

/-!
# A treap-backed ordered set (`src/set.h`)

Shallow embedding of the class template `Set<ValueType>`.

* The node graph is tree shaped through the owning links `left` / `right`, so a
  `Node *` is embedded as the subtree it owns (`Node.null` is `nullptr`).
* Every node carries its own address `addr`; the non-owning back link `parent`
  is an optional address, exactly the data the C++ field holds.  Nothing in the
  type forces it to name the structural parent: it can be stale.
* The priority drawn from `dist_(generator_)` and the address returned by
  `new Node` are inputs of `insert`.
* `ValueType` is any linearly ordered type; `priority` and `size_` are
  mathematical integers (the code only compares priorities, and `size_` stays
  within `int` as long as fewer than `2^31` nodes are alive).
-/

namespace Treap

/-- A pointer to a node together with the subtree it owns (`struct Node`, `set.h:11`). -/
inductive Node (α : Type) where
  | null : Node α
  | node (addr : Nat) (val : α) (priority : Int) (parent : Option Nat)
      (left right : Node α) : Node α
  deriving DecidableEq, Repr

namespace Node

variable {α : Type}

/-- The address held by a pointer, `none` for `nullptr`. -/
def ptr : Node α → Option Nat
  | null => none
  | node a _ _ _ _ _ => some a

/-- Field `parent` of the node pointed to (`none` for `nullptr`). -/
def parentOf : Node α → Option Nat
  | null => none
  | node _ _ _ par _ _ => par

/-- Field `left` of the node pointed to. -/
def leftOf : Node α → Node α
  | null => null
  | node _ _ _ _ l _ => l

/-- Field `right` of the node pointed to. -/
def rightOf : Node α → Node α
  | null => null
  | node _ _ _ _ _ r => r

/-- Number of nodes reachable through `left` / `right`. -/
def count : Node α → Nat
  | null => 0
  | node _ _ _ _ l r => count l + 1 + count r

/-- In-order sequence of the stored values. -/
def values : Node α → List α
  | null => []
  | node _ v _ _ l r => values l ++ v :: values r

/-- In-order sequence of the node addresses. -/
def addrs : Node α → List Nat
  | null => []
  | node a _ _ _ l r => addrs l ++ a :: addrs r

/-- All priorities stored in the tree (in-order). -/
def priorities : Node α → List Int
  | null => []
  | node _ _ p _ l r => priorities l ++ p :: priorities r

/-- In-order sequence of the nodes as (address, value, priority). -/
def entries : Node α → List (Nat × α × Int)
  | null => []
  | node a v p _ l r => entries l ++ (a, v, p) :: entries r

/-- The assignment `n->parent = p` (no effect through `nullptr`, where the code guards it). -/
def setParent (p : Option Nat) : Node α → Node α
  | null => null
  | node a v pr _ l r => node a v pr p l r

/-- Memory read: the node stored at address `x` among the nodes owned by `mem`. -/
def deref : Node α → Nat → Option (Node α)
  | null, _ => none
  | node a v pr par l r, x =>
    if a = x then some (node a v pr par l r)
    else match deref l x with
      | some n => some n
      | none => deref r x

end Node

open Node

variable {α : Type}

/-- `UpdateParent` (`set.h:25`): both children of `root` get `parent = root`. -/
def UpdateParent : Node α → Node α
  | null => null
  | node a v pr par l r => node a v pr par (setParent (some a) l) (setParent (some a) r)

/-- `split` (`set.h:37`): `.error` is the thrown `runtime_error`. -/
def split [LinearOrder α] : Node α → α → Except String (Node α × Node α)
  | null, _ => .ok (null, null)
  | node a v pr par l r, value =>
    if value < v then
      match split l value with
      | .error e => .error e
      | .ok res => .ok (UpdateParent res.1, UpdateParent (node a v pr par res.2 r))
    else if v < value then
      match split r value with
      | .error e => .error e
      | .ok res => .ok (UpdateParent (node a v pr par l res.1), UpdateParent res.2)
    else
      .error "equal element"

/-- `merge` (`set.h:60`). -/
def merge : Node α → Node α → Node α
  | null, rhs => rhs
  | node la lv lp lpar ll lr, null => node la lv lp lpar ll lr
  | node la lv lp lpar ll lr, node ra rv rp rpar rl rr =>
    if lp > rp then
      UpdateParent (node la lv lp lpar ll (merge lr (node ra rv rp rpar rl rr)))
    else
      UpdateParent (node ra rv rp rpar (merge (node la lv lp lpar ll lr) rl) rr)
termination_by lhs rhs => count lhs + count rhs
decreasing_by
  all_goals simp_wf
  all_goals simp only [count]
  all_goals omega

/-- `GetLeft` (`set.h:110`): the left-most node, `nullptr` for the empty tree. -/
def GetLeft : Node α → Node α
  | null => null
  | node a v pr par null r => node a v pr par null r
  | node _ _ _ _ (node a v pr par l r) _ => GetLeft (node a v pr par l r)

/-- `GetRight` (`set.h:119`): the right-most node, `nullptr` for the empty tree. -/
def GetRight : Node α → Node α
  | null => null
  | node a v pr par l null => node a v pr par l null
  | node _ _ _ _ _ (node a v pr par l r) => GetRight (node a v pr par l r)

/-- `Insert` (`set.h:128`); `vertex` is never `nullptr` at the call site. -/
def Insert [LinearOrder α] (root : Node α) : Node α → Except String (Node α)
  | null => .error "null vertex"
  | node a v pr par l r =>
    match split root v with
    | .error e => .error e
    | .ok res => .ok (merge (merge res.1 (node a v pr par l r)) res.2)

/-- `Erase` (`set.h:135`): returns the new content of the slot `root` and the new `size_`. -/
def Erase [LinearOrder α] : Node α → α → Option Nat → Int → Node α × Int
  | null, _, _, size_ => (null, size_)
  | node a v pr par l r, value, prev, size_ =>
    if value < v then
      let res := Erase l value (some a) size_
      (node a v pr par res.1 r, res.2)
    else if v < value then
      let res := Erase r value (some a) size_
      (node a v pr par l res.1, res.2)
    else
      (merge (setParent prev l) (setParent prev r), size_ - 1)

/-- `Set::iterator` (`set.h:223`): a node address and the end flag. -/
structure iterator where
  ptr_ : Option Nat
  end_ : Bool
  deriving DecidableEq, Repr

namespace iterator

/-- `operator==` (`set.h:298`). -/
def eq (it other : iterator) : Bool :=
  if it.end_ && other.end_ then true
  else if it.ptr_.isNone && other.ptr_.isNone then true
  else it.ptr_ == other.ptr_ && it.end_ == other.end_

/-- `operator!=` (`set.h:308`). -/
def ne (it other : iterator) : Bool := !(it.eq other)

/-- The loop `while (par && par->right == ptr_) { ptr_ = par; par = ptr_->parent; }` of
`operator++`, started with `fuel` iterations allowed; `none` when the fuel runs out or a
pointer does not name a node of `mem`. The result is the final `(ptr_, par)`. -/
def climbRight (mem : Node α) : Nat → Nat → Option Nat → Option (Nat × Option Nat)
  | _, p, none => some (p, none)
  | 0, _, some _ => none
  | fuel + 1, p, some q =>
    match deref mem q with
    | none => none
    | some n =>
      if n.rightOf.ptr = some p then climbRight mem fuel q n.parentOf else some (p, some q)

/-- The loop `while (par && par->left == ptr_) { ptr_ = par; par = ptr_->parent; }` of
`operator--`. -/
def climbLeft (mem : Node α) : Nat → Nat → Option Nat → Option (Nat × Option Nat)
  | _, p, none => some (p, none)
  | 0, _, some _ => none
  | fuel + 1, p, some q =>
    match deref mem q with
    | none => none
    | some n =>
      if n.leftOf.ptr = some p then climbLeft mem fuel q n.parentOf else some (p, some q)

/-- `operator++` (`set.h:237`) on the memory owned by the tree `mem`. The loop gets
`count mem + 1` iterations: it visits a different node of `mem` each time, so needing more
means it runs forever. -/
def inc (mem : Node α) (it : iterator) : Except String iterator :=
  match it.ptr_ with
  | none => .error "Null pointer in ++"
  | some p =>
    match deref mem p with
    | none => .error "dangling pointer"
    | some n =>
      match n.rightOf with
      | node a v pr par l r => .ok ⟨(GetLeft (node a v pr par l r)).ptr, it.end_⟩
      | null =>
        match climbRight mem (count mem + 1) p n.parentOf with
        | none => .error "no result"
        | some (_, none) => .ok ⟨some p, true⟩
        | some (_, some par) => .ok ⟨some par, it.end_⟩

/-- `operator--` (`set.h:260`). -/
def dec (mem : Node α) (it : iterator) : Except String iterator :=
  if it.end_ then .ok ⟨it.ptr_, false⟩
  else
    match it.ptr_ with
    | none => .error "null dereference"
    | some p =>
      match deref mem p with
      | none => .error "dangling pointer"
      | some n =>
        match n.leftOf with
        | node a v pr par l r => .ok ⟨(GetRight (node a v pr par l r)).ptr, it.end_⟩
        | null =>
          match climbLeft mem (count mem + 1) p n.parentOf with
          | none => .error "no result"
          | some (_, par) => .ok ⟨par, it.end_⟩

/-- `operator*` (`set.h:290`): `ptr_->val`. -/
def get (mem : Node α) (it : iterator) : Except String α :=
  match it.ptr_ with
  | none => .error "null dereference"
  | some p =>
    match deref mem p with
    | some (node _ v _ _ _ _) => .ok v
    | _ => .error "dangling pointer"

end iterator

/-- The data members `root_` and `size_` of `Set` (`set.h:20`); the random generator is
represented by the priorities it returns, which are arguments of `insert`. -/
structure Set (α : Type) where
  root_ : Node α
  size_ : Int
  deriving DecidableEq, Repr

namespace Set

/-- `Set()` (`set.h:159`). -/
def init : Set α := ⟨null, 0⟩

/-- `begin` (`set.h:327`). -/
def begin (s : Set α) : iterator := ⟨(GetLeft s.root_).ptr, false⟩

/-- `end` (`set.h:331`). -/
def end_ (s : Set α) : iterator := ⟨(GetRight s.root_).ptr, true⟩

/-- The loop of `find` (`set.h:315`), started at `ptr`. -/
def findLoop [LinearOrder α] (s : Set α) : Node α → α → iterator
  | null, _ => s.end_
  | node a v _ _ l r, value =>
    if value < v then findLoop s l value
    else if v < value then findLoop s r value
    else ⟨some a, false⟩

/-- `find` (`set.h:313`). -/
def find [LinearOrder α] (s : Set α) (value : α) : iterator :=
  findLoop s s.root_ value

/-- The loop of `lower_bound` (`set.h:338`) and the code after it, started at `prev`, `cur`. -/
def lowerBoundLoop [LinearOrder α] (s : Set α) : Option Nat → Node α → α → iterator
  | none, null, _ => s.end_
  | some p, null, _ => ⟨some p, false⟩
  | prev, node a v _ _ l r, val =>
    if val < v then lowerBoundLoop s (some a) l val
    else if v < val then lowerBoundLoop s prev r val
    else ⟨some a, false⟩

/-- `lower_bound` (`set.h:335`). -/
def lower_bound [LinearOrder α] (s : Set α) (val : α) : iterator :=
  lowerBoundLoop s none s.root_ val

/-- `insert` (`set.h:162`); `pr` is the value of `dist_(generator_)` and `addr` the address
`new Node` returns, both used only when the value is not found. -/
def insert [LinearOrder α] (s : Set α) (value : α) (pr : Int) (addr : Nat) :
    Except String (Set α) :=
  if (s.find value).ne s.end_ then .ok s
  else
    match Insert s.root_ (node addr value pr none null null) with
    | .error e => .error e
    | .ok root => .ok ⟨root, s.size_ + 1⟩

/-- `erase` (`set.h:171`). -/
def erase [LinearOrder α] (s : Set α) (value : α) : Set α :=
  let res := Erase s.root_ value none s.size_
  ⟨res.1, res.2⟩

/-- `empty` (`set.h:175`). -/
def empty (s : Set α) : Bool := s.size_ == 0

/-- `size` (`set.h:179`). -/
def size (s : Set α) : Int := s.size_

/-- The loop of `Set(Iter, Iter)` and of `Set(initializer_list)` (`set.h:195`, `set.h:202`):
each element comes with the priority and the address its `insert` would use. -/
def insertAll [LinearOrder α] : Set α → List (α × Int × Nat) → Except String (Set α)
  | s, [] => .ok s
  | s, (x, pr, addr) :: rest =>
    match s.insert x pr addr with
    | .error e => .error e
    | .ok s1 => insertAll s1 rest

/-- `Set(Iter first, Iter last)` and `Set(initializer_list)` (`set.h:193`, `set.h:200`). -/
def ofRange [LinearOrder α] (xs : List (α × Int × Nat)) : Except String (Set α) :=
  insertAll ⟨null, 0⟩ xs

/-- `Copy` (`set.h:85`) run on the set under construction `s`; the `k`-th call of `insert`
gets the priority and address `draw k`. Returns the set and the number of calls so far. -/
def Copy [LinearOrder α] (draw : Nat → Int × Nat) :
    Node α → Set α × Nat → Except String (Set α × Nat)
  | null, st => .ok st
  | node _ v _ _ l r, st =>
    match st.1.insert v (draw st.2).1 (draw st.2).2 with
    | .error e => .error e
    | .ok s1 =>
      match Copy draw l (s1, st.2 + 1) with
      | .error e => .error e
      | .ok st2 => Copy draw r st2

/-- `Set(const Set &other)` (`set.h:207`). -/
def copy [LinearOrder α] (other : Set α) (draw : Nat → Int × Nat) : Except String (Set α) :=
  match Copy draw other.root_ (⟨null, 0⟩, 0) with
  | .error e => .error e
  | .ok st => .ok ⟨st.1.root_, other.size_⟩

end Set

/-- A call of the public interface that changes a set. -/
inductive Op (α : Type) where
  | insert (value : α) (pr : Int) (addr : Nat)
  | erase (value : α)
  deriving DecidableEq, Repr

/-- One public call. -/
def Set.step [LinearOrder α] (s : Set α) : Op α → Except String (Set α)
  | .insert value pr addr => s.insert value pr addr
  | .erase value => .ok (s.erase value)

/-- A sequence of public calls, stopped by the first exception. -/
def Set.run [LinearOrder α] : Set α → List (Op α) → Except String (Set α)
  | s, [] => .ok s
  | s, op :: ops =>
    match s.step op with
    | .error e => .error e
    | .ok s1 => Set.run s1 ops

/-! ## Invariants -/

/-- Priority of the node pointed to, `none` for `nullptr`. -/
def Node.priorityOf : Node α → Option Int
  | null => none
  | node _ _ p _ _ _ => some p

/-- BST property: at every node the values of the left subtree are less than the node's value
and the values of the right subtree are greater. -/
def BST [LinearOrder α] : Node α → Prop
  | null => True
  | node _ v _ _ l r =>
    (∀ x ∈ values l, x < v) ∧ (∀ x ∈ values r, v < x) ∧ BST l ∧ BST r

instance BST.decide [LinearOrder α] : (t : Node α) → Decidable (BST t)
  | null => isTrue trivial
  | node _ v _ _ l r =>
    have := BST.decide l
    have := BST.decide r
    inferInstanceAs (Decidable
      ((∀ x ∈ values l, x < v) ∧ (∀ x ∈ values r, v < x) ∧ BST l ∧ BST r))

/-- Max-heap property: the priority of every node is at least the priority of each child. -/
def MaxHeap : Node α → Prop
  | null => True
  | node _ _ p _ l r =>
    (∀ q ∈ l.priorityOf, q ≤ p) ∧ (∀ q ∈ r.priorityOf, q ≤ p) ∧ MaxHeap l ∧ MaxHeap r

instance MaxHeap.decide : (t : Node α) → Decidable (MaxHeap t)
  | null => isTrue trivial
  | node _ _ p _ l r =>
    have := MaxHeap.decide l
    have := MaxHeap.decide r
    inferInstanceAs (Decidable
      ((∀ q ∈ l.priorityOf, q ≤ p) ∧ (∀ q ∈ r.priorityOf, q ≤ p) ∧ MaxHeap l ∧ MaxHeap r))

/-- Every present child names its structural parent in its `parent` field. -/
def ChildrenLinked : Node α → Prop
  | null => True
  | node a _ _ _ l r =>
    (l ≠ null → l.parentOf = some a) ∧ (r ≠ null → r.parentOf = some a) ∧
      ChildrenLinked l ∧ ChildrenLinked r

instance ChildrenLinked.decide [DecidableEq α] : (t : Node α) → Decidable (ChildrenLinked t)
  | null => isTrue trivial
  | node a _ _ _ l r =>
    have := ChildrenLinked.decide l
    have := ChildrenLinked.decide r
    inferInstanceAs (Decidable
      ((l ≠ null → l.parentOf = some a) ∧ (r ≠ null → r.parentOf = some a) ∧
        ChildrenLinked l ∧ ChildrenLinked r))

/-- Parent consistency of a whole tree: all children are linked and the root has no parent. -/
def ParentConsistent (t : Node α) : Prop :=
  ChildrenLinked t ∧ t.parentOf = none

instance ParentConsistent.decide [DecidableEq α] (t : Node α) :
    Decidable (ParentConsistent t) :=
  inferInstanceAs (Decidable (ChildrenLinked t ∧ t.parentOf = none))

/-- Heap order with the tie rule of `merge`: a priority equal to the node's can only sit in
the left subtree. -/
def HeapOrdered : Node α → Prop
  | null => True
  | node _ _ p _ l r =>
    (∀ q ∈ priorities l, q ≤ p) ∧ (∀ q ∈ priorities r, q < p) ∧ HeapOrdered l ∧ HeapOrdered r

/-- The client loop `for (it = begin(); it != end(); ++it) out.push_back(*it);` continued
from `it`, with `fuel` evaluations of the loop condition allowed. -/
def Set.collect (s : Set α) : Nat → iterator → Except String (List α)
  | 0, _ => .error "no result"
  | fuel + 1, it =>
    if it.ne s.end_ then
      match it.get s.root_ with
      | .error e => .error e
      | .ok v =>
        match it.inc s.root_ with
        | .error e => .error e
        | .ok it1 =>
          match Set.collect s fuel it1 with
          | .error e => .error e
          | .ok vs => .ok (v :: vs)
    else .ok []

/-- The values met by a full traversal from `begin()` to `end()`. While the loop runs the
iterator is at a different node each time, so `count + 1` evaluations of the condition are
enough unless the loop runs forever. -/
def Set.traversal (s : Set α) : Except String (List α) :=
  s.collect (count s.root_ + 1) s.begin

/-- The allocator contract along a sequence of calls: whenever `insert` creates a node, the
address it gets from `new` is not the address of a node of the tree. -/
def Fresh [LinearOrder α] : Set α → List (Op α) → Prop
  | _, [] => True
  | s, .erase value :: ops => Fresh (s.erase value) ops
  | s, .insert value pr addr :: ops =>
    ((s.find value).ne s.end_ = false → addr ∉ addrs s.root_) ∧
      match s.insert value pr addr with
      | .ok s1 => Fresh s1 ops
      | .error _ => True

/-- One step of the path from a node up to the root: the fields of the parent node and the
sibling subtree; `left` when the path comes up from the left child. -/
inductive Frame (α : Type) where
  | left (addr : Nat) (val : α) (priority : Int) (parent : Option Nat) (right : Node α)
  | right (addr : Nat) (val : α) (priority : Int) (parent : Option Nat) (left : Node α)

/-- Address of the node a frame stands for. -/
def Frame.addr : Frame α → Nat
  | .left a _ _ _ _ => a
  | .right a _ _ _ _ => a

/-- Field `parent` of the node a frame stands for. -/
def Frame.parent : Frame α → Option Nat
  | .left _ _ _ par _ => par
  | .right _ _ _ par _ => par

/-- The tree obtained by putting `t` below the path `c` (innermost frame first). -/
def plug : List (Frame α) → Node α → Node α
  | [], t => t
  | .left a v pr par r :: c, t => plug c (node a v pr par t r)
  | .right a v pr par l :: c, t => plug c (node a v pr par l t)

/-- The nodes that precede the subtree below the path `c` in the in-order sequence. -/
def entriesBefore : List (Frame α) → List (Nat × α × Int)
  | [] => []
  | .left _ _ _ _ _ :: c => entriesBefore c
  | .right a v pr _ l :: c => entriesBefore c ++ (entries l ++ [(a, v, pr)])

/-- The nodes that follow the subtree below the path `c` in the in-order sequence. -/
def entriesAfter : List (Frame α) → List (Nat × α × Int)
  | [] => []
  | .left a v pr _ r :: c => (a, v, pr) :: entries r ++ entriesAfter c
  | .right _ _ _ _ _ :: c => entriesAfter c

/-- The structural parent of the subtree below the path `c`. -/
def pathParent : List (Frame α) → Option Nat
  | [] => none
  | f :: _ => some f.addr

/-- Every node on the path has its structural parent in its `parent` field. -/
def PathLinked : List (Frame α) → Prop
  | [] => True
  | f :: c => f.parent = pathParent c ∧ PathLinked c

/-- Where the climbing loop of `operator++` stops when started at address `p` below the path
`c`: at the first node the path leaves through a left link. -/
def climbResult : List (Frame α) → Nat → Nat × Option Nat
  | [], p => (p, none)
  | .left a _ _ _ _ :: _, p => (p, some a)
  | .right a _ _ _ _ :: c, _ => climbResult c a

/-- A call of the public interface, constructors and copy included. -/
inductive Call (α : Type) where
  | init
  | ofRange (xs : List (α × Int × Nat))
  | insert (value : α) (pr : Int) (addr : Nat)
  | erase (value : α)
  | copy (draw : Nat → Int × Nat)

/-- One public call; a constructor replaces the set at hand by the one it builds, `copy`
replaces it by its copy. -/
def Set.call [LinearOrder α] (s : Set α) : Call α → Except String (Set α)
  | .init => .ok Set.init
  | .ofRange xs => Set.ofRange xs
  | .insert value pr addr => s.insert value pr addr
  | .erase value => .ok (s.erase value)
  | .copy draw => s.copy draw

/-- A sequence of public calls, stopped by the first exception. -/
def Set.calls [LinearOrder α] : Set α → List (Call α) → Except String (Set α)
  | s, [] => .ok s
  | s, c :: cs =>
    match s.call c with
    | .error e => .error e
    | .ok s1 => Set.calls s1 cs

/-- The properties every set built through the public interface has. -/
def Set.WellFormed [LinearOrder α] (s : Set α) : Prop :=
  BST s.root_ ∧ HeapOrdered s.root_ ∧ ParentConsistent s.root_ ∧ s.size_ = count s.root_

/-- The set {2, 4, 6, 8} as one possible treap, used to instantiate the results below. -/
def sample : Set Nat :=
  ⟨node 1 4 9 none (node 2 2 5 (some 1) null null)
    (node 3 6 7 (some 1) null (node 4 8 1 (some 3) null null)), 4⟩

/-- The calls `insert 5, 3, 8, 1, 4` with some priorities (ties included) and addresses. -/
def walk5 : List (Op Nat) :=
  [.insert 5 7 1, .insert 3 7 2, .insert 8 2 3, .insert 1 9 4, .insert 4 7 5]

/-- The calls of `walk5` followed by `erase 3`. -/
def walk6 : List (Op Nat) := walk5 ++ [.erase 3]

/-- `operator=` (`set.h:214`): `aliased` is the test `this == &other`; otherwise the set is
destroyed and copy-constructed from `other`. -/
def Set.assign [LinearOrder α] (s other : Set α) (aliased : Bool) (draw : Nat → Int × Nat) :
    Except String (Set α) :=
  if aliased then .ok s else other.copy draw

/-- What a call asks for, without the priority and the address: `true` for `insert`. -/
def Op.request : Op α → Bool × α
  | .insert value _ _ => (true, value)
  | .erase value => (false, value)

/-- The priority drawn by a call, if it is an `insert`. -/
def Op.priority? : Op α → Option Int
  | .insert _ pr _ => some pr
  | .erase _ => none

/-- Where the climbing loop of `operator--` stops when started at address `p` below the path
`c`: at the first node the path leaves through a right link. -/
def climbResultLeft : List (Frame α) → Nat → Nat × Option Nat
  | [], p => (p, none)
  | .right a _ _ _ _ :: _, p => (p, some a)
  | .left a _ _ _ _ :: c, _ => climbResultLeft c a

/-- A parent-consistent treap holding 3 and 5, with the root 5 at address 1. -/
def pair35 : Node Nat :=
  node 1 5 9 none (node 2 3 4 (some 1) null null) null

/-- Priorities and addresses for a copy: the `k`-th created node gets priority `k`. -/
def rising : Nat → Int × Nat := fun k => (k, 10 + k)

/-- `iterator()` (`set.h:232`). -/
def iterator.init : iterator := ⟨none, true⟩

/-- The priorities actually drawn along a sequence of calls: one for each `insert` that does
not find its value. -/
def drawn [LinearOrder α] : Set α → List (Op α) → List Int
  | _, [] => []
  | s, .erase value :: ops => drawn (s.erase value) ops
  | s, .insert value pr addr :: ops =>
    (if (s.find value).ne s.end_ then [] else [pr]) ++
      match s.insert value pr addr with
      | .ok s1 => drawn s1 ops
      | .error _ => []

/-- The requests of `walk5` with other priorities and addresses. -/
def walk5b : List (Op Nat) :=
  [.insert 5 1 11, .insert 3 2 12, .insert 8 3 13, .insert 1 4 14, .insert 4 5 15]

/-- Three inserts with pairwise distinct priorities and an `erase`. -/
def walk4 : List (Op Nat) :=
  [.insert 5 3 1, .insert 3 8 2, .insert 8 1 3, .erase 5]

/-! ## Elementary facts -/

section Basic

theorem values_eq_map (t : Node α) : values t = (entries t).map (fun e => e.2.1) := by
  induction t with
  | null => rfl
  | node a v p par l r ihl ihr => simp [values, entries, ihl, ihr]

theorem addrs_eq_map (t : Node α) : addrs t = (entries t).map (fun e => e.1) := by
  induction t with
  | null => rfl
  | node a v p par l r ihl ihr => simp [addrs, entries, ihl, ihr]

theorem priorities_eq_map (t : Node α) : priorities t = (entries t).map (fun e => e.2.2) := by
  induction t with
  | null => rfl
  | node a v p par l r ihl ihr => simp [priorities, entries, ihl, ihr]

theorem count_eq_length (t : Node α) : count t = (entries t).length := by
  induction t with
  | null => rfl
  | node a v p par l r ihl ihr => simp [count, entries, ihl, ihr]; omega

theorem count_eq_values_length (t : Node α) : count t = (values t).length := by
  rw [count_eq_length, values_eq_map, List.length_map]

theorem entries_eq_nil {t : Node α} : entries t = [] ↔ t = null := by
  cases t <;> simp [entries]

@[simp] theorem entries_setParent (p : Option Nat) (t : Node α) :
    entries (setParent p t) = entries t := by
  cases t <;> rfl

@[simp] theorem entries_UpdateParent (t : Node α) : entries (UpdateParent t) = entries t := by
  cases t <;> simp [UpdateParent, entries]

@[simp] theorem values_setParent (p : Option Nat) (t : Node α) :
    values (setParent p t) = values t := by
  simp [values_eq_map]

@[simp] theorem values_UpdateParent (t : Node α) : values (UpdateParent t) = values t := by
  simp [values_eq_map]

@[simp] theorem priorities_setParent (p : Option Nat) (t : Node α) :
    priorities (setParent p t) = priorities t := by
  simp [priorities_eq_map]

@[simp] theorem priorities_UpdateParent (t : Node α) :
    priorities (UpdateParent t) = priorities t := by
  simp [priorities_eq_map]

@[simp] theorem ptr_setParent (p : Option Nat) (t : Node α) : (setParent p t).ptr = t.ptr := by
  cases t <;> rfl

@[simp] theorem ptr_UpdateParent (t : Node α) : (UpdateParent t).ptr = t.ptr := by
  cases t <;> rfl

@[simp] theorem parentOf_UpdateParent (t : Node α) : (UpdateParent t).parentOf = t.parentOf := by
  cases t <;> rfl

@[simp] theorem priorityOf_setParent (p : Option Nat) (t : Node α) :
    (setParent p t).priorityOf = t.priorityOf := by
  cases t <;> rfl

@[simp] theorem priorityOf_UpdateParent (t : Node α) :
    (UpdateParent t).priorityOf = t.priorityOf := by
  cases t <;> rfl

theorem setParent_eq_null {p : Option Nat} {t : Node α} : setParent p t = null ↔ t = null := by
  cases t <;> simp [setParent]

theorem UpdateParent_eq_null {t : Node α} : UpdateParent t = null ↔ t = null := by
  cases t <;> simp [UpdateParent]

theorem entries_merge (l r : Node α) : entries (merge l r) = entries l ++ entries r := by
  induction l, r using merge.induct with
  | case1 rhs => simp [merge, entries]
  | case2 la lv lp lpar ll lr => simp [merge, entries]
  | case3 la lv lp lpar ll lr ra rv rp rpar rl rr h ih =>
    rw [merge, if_pos h, entries_UpdateParent]
    simp [entries, ih]
  | case4 la lv lp lpar ll lr ra rv rp rpar rl rr h ih =>
    rw [merge, if_neg h, entries_UpdateParent]
    simp [entries, ih]

theorem values_merge (l r : Node α) : values (merge l r) = values l ++ values r := by
  simp [values_eq_map, entries_merge]

theorem priorities_merge (l r : Node α) :
    priorities (merge l r) = priorities l ++ priorities r := by
  simp [priorities_eq_map, entries_merge]

theorem entries_split [LinearOrder α] {t : Node α} {value : α} {res : Node α × Node α}
    (h : split t value = .ok res) : entries res.1 ++ entries res.2 = entries t := by
  induction t generalizing res with
  | null => simp [split] at h; subst h; rfl
  | node a v pr par l r ihl ihr =>
    unfold split at h
    split_ifs at h with h1 h2
    · cases hl : split l value with
      | error e => simp [hl] at h
      | ok rl =>
        simp only [hl, Except.ok.injEq] at h
        subst h
        simp [entries, ← ihl hl]
    · cases hr : split r value with
      | error e => simp [hr] at h
      | ok rr =>
        simp only [hr, Except.ok.injEq] at h
        subst h
        simp [entries, ← ihr hr]

theorem values_split [LinearOrder α] {t : Node α} {value : α} {res : Node α × Node α}
    (h : split t value = .ok res) : values res.1 ++ values res.2 = values t := by
  simp [values_eq_map, ← entries_split h]

theorem priorities_split [LinearOrder α] {t : Node α} {value : α} {res : Node α × Node α}
    (h : split t value = .ok res) : priorities res.1 ++ priorities res.2 = priorities t := by
  simp [priorities_eq_map, ← entries_split h]

/-- `split` throws only when the key is stored on the search path. -/
theorem split_ok [LinearOrder α] (t : Node α) (value : α) (h : value ∉ values t) :
    ∃ res, split t value = .ok res := by
  induction t with
  | null => exact ⟨_, rfl⟩
  | node a v pr par l r ihl ihr =>
    simp only [values, List.mem_append, List.mem_cons, not_or] at h
    obtain ⟨hl, hv, hr⟩ := h
    unfold split
    split_ifs with h1 h2
    · obtain ⟨res, e⟩ := ihl hl
      exact ⟨_, by rw [e]⟩
    · obtain ⟨res, e⟩ := ihr hr
      exact ⟨_, by rw [e]⟩
    · exact absurd (le_antisymm (not_lt.mp h2) (not_lt.mp h1)) hv

theorem bst_iff_sorted [LinearOrder α] (t : Node α) :
    BST t ↔ (values t).Sorted (· < ·) := by
  induction t with
  | null => simp [BST, values]
  | node a v pr par l r ihl ihr =>
    simp only [BST, values, List.Sorted, List.pairwise_append, List.pairwise_cons,
      List.mem_cons] at *
    rw [ihl, ihr]
    constructor
    · rintro ⟨h1, h2, h3, h4⟩
      refine ⟨h3, ⟨h2, h4⟩, ?_⟩
      rintro x hx y (rfl | hy)
      · exact h1 x hx
      · exact lt_trans (h1 x hx) (h2 y hy)
    · rintro ⟨h1, ⟨h2, h3⟩, h4⟩
      exact ⟨fun x hx => h4 x hx v (Or.inl rfl), h2, h1, h3⟩

theorem bst_setParent [LinearOrder α] (p : Option Nat) (t : Node α) :
    BST (setParent p t) ↔ BST t := by
  simp [bst_iff_sorted]

theorem bst_merge [LinearOrder α] {l r : Node α} (hl : BST l) (hr : BST r)
    (h : ∀ x ∈ values l, ∀ y ∈ values r, x < y) : BST (merge l r) := by
  rw [bst_iff_sorted] at *
  rw [values_merge]
  exact List.pairwise_append.mpr ⟨hl, hr, h⟩

theorem split_bounds [LinearOrder α] {t : Node α} {value : α} {res : Node α × Node α}
    (hb : BST t) (h : split t value = .ok res) :
    (∀ x ∈ values res.1, x < value) ∧ (∀ y ∈ values res.2, value < y) := by
  induction t generalizing res with
  | null => simp [split] at h; subst h; simp [values]
  | node a v pr par l r ihl ihr =>
    obtain ⟨b1, b2, b3, b4⟩ := hb
    unfold split at h
    split_ifs at h with h1 h2
    · cases hl : split l value with
      | error e => simp [hl] at h
      | ok rl =>
        simp only [hl, Except.ok.injEq] at h
        subst h
        obtain ⟨i1, i2⟩ := ihl b3 hl
        refine ⟨by simpa using i1, ?_⟩
        simp only [values_UpdateParent, values_setParent, values, List.mem_append, List.mem_cons]
        rintro y (hy | rfl | hy)
        · exact i2 y hy
        · exact h1
        · exact lt_trans h1 (b2 y hy)
    · cases hr : split r value with
      | error e => simp [hr] at h
      | ok rr =>
        simp only [hr, Except.ok.injEq] at h
        subst h
        obtain ⟨i1, i2⟩ := ihr b4 hr
        refine ⟨?_, by simpa using i2⟩
        simp only [values_UpdateParent, values_setParent, values, List.mem_append, List.mem_cons]
        rintro y (hy | rfl | hy)
        · exact lt_trans (b1 y hy) h2
        · exact h2
        · exact i1 y hy

theorem bst_split [LinearOrder α] {t : Node α} {value : α} {res : Node α × Node α}
    (hb : BST t) (h : split t value = .ok res) : BST res.1 ∧ BST res.2 := by
  simp only [bst_iff_sorted] at *
  rw [← values_split h] at hb
  exact ⟨(List.pairwise_append.mp hb).1, (List.pairwise_append.mp hb).2.1⟩

end Basic

/-! ## `find` -/

section Find

theorem iterator_at_ne_end (a : Nat) (s : Set α) :
    (iterator.mk (some a) false).ne s.end_ = true := by
  simp [iterator.ne, iterator.eq, Set.end_]

theorem iterator_end_ne_end (s : Set α) : s.end_.ne s.end_ = false := by
  simp [iterator.ne, iterator.eq, Set.end_]

theorem findLoop_of_not_mem [LinearOrder α] (s : Set α) (t : Node α) {value : α}
    (h : value ∉ values t) : s.findLoop t value = s.end_ := by
  induction t with
  | null => rfl
  | node a v pr par l r ihl ihr =>
    simp only [values, List.mem_append, List.mem_cons, not_or] at h
    obtain ⟨hl, hv, hr⟩ := h
    unfold Set.findLoop
    split_ifs with h1 h2
    · exact ihl hl
    · exact ihr hr
    · exact absurd (le_antisymm (not_lt.mp h2) (not_lt.mp h1)) hv

theorem findLoop_of_mem [LinearOrder α] (s : Set α) {t : Node α} {value : α}
    (hb : BST t) (h : value ∈ values t) :
    ∃ a p, s.findLoop t value = ⟨some a, false⟩ ∧ (a, value, p) ∈ entries t := by
  induction t with
  | null => simp [values] at h
  | node a v pr par l r ihl ihr =>
    obtain ⟨b1, b2, b3, b4⟩ := hb
    simp only [values, List.mem_append, List.mem_cons] at h
    unfold Set.findLoop
    split_ifs with h1 h2
    · rcases h with h | h | h
      · obtain ⟨a1, p1, e, m⟩ := ihl b3 h
        exact ⟨a1, p1, e, by simp [entries, m]⟩
      · exact absurd h1 (by rw [h]; exact lt_irrefl _)
      · exact absurd (lt_trans h1 (b2 _ h)) (lt_irrefl _)
    · rcases h with h | h | h
      · exact absurd (lt_trans h2 (b1 _ h)) (lt_irrefl _)
      · exact absurd h2 (by rw [h]; exact lt_irrefl _)
      · obtain ⟨a1, p1, e, m⟩ := ihr b4 h
        exact ⟨a1, p1, e, by simp [entries, m]⟩
    · have hv : value = v := le_antisymm (not_lt.mp h2) (not_lt.mp h1)
      exact ⟨a, pr, rfl, by simp [entries, hv]⟩

end Find

/-! ## `insert` -/

section InsertFacts

theorem orderedInsert_between [LinearOrder α] (v : α) (L R : List α)
    (hL : ∀ x ∈ L, x < v) (hR : ∀ y ∈ R, v < y) :
    List.orderedInsert (· ≤ ·) v (L ++ R) = L ++ v :: R := by
  induction L with
  | nil =>
    cases R with
    | nil => rfl
    | cons y R =>
      simp [List.orderedInsert, le_of_lt (hR y (List.mem_cons_self _ _))]
  | cons x L ih =>
    have hx : ¬ v ≤ x := not_le.mpr (hL x (List.mem_cons_self _ _))
    have ih1 := ih (fun z hz => hL z (List.mem_cons_of_mem _ hz))
    simp only [List.cons_append, List.orderedInsert, if_neg hx]
    exact congrArg _ ih1

/-- The result of `insert` when the value is found. -/
theorem insert_of_mem [LinearOrder α] (s : Set α) {value : α} (pr : Int) (addr : Nat)
    (hb : BST s.root_) (h : value ∈ values s.root_) : s.insert value pr addr = .ok s := by
  obtain ⟨a, p, e, -⟩ := findLoop_of_mem s hb h
  unfold Set.insert Set.find
  rw [e, iterator_at_ne_end, if_pos rfl]

/-- The result of `insert` when the value is not found: the new node sits between the two
halves returned by `split`. -/
theorem insert_of_not_mem [LinearOrder α] (s : Set α) {value : α} (pr : Int) (addr : Nat)
    (h : value ∉ values s.root_) :
    ∃ res, split s.root_ value = .ok res ∧
      s.insert value pr addr =
        .ok ⟨merge (merge res.1 (node addr value pr none null null)) res.2, s.size_ + 1⟩ := by
  obtain ⟨res, e⟩ := split_ok s.root_ value h
  refine ⟨res, e, ?_⟩
  unfold Set.insert Set.find
  rw [findLoop_of_not_mem s _ h, iterator_end_ne_end]
  simp [Insert, e]

theorem entries_insert_of_not_mem [LinearOrder α] (s : Set α) {value : α} (pr : Int)
    (addr : Nat) (h : value ∉ values s.root_) :
    ∃ s1 L R, s.insert value pr addr = .ok s1 ∧ entries s.root_ = L ++ R ∧
      entries s1.root_ = L ++ (addr, value, pr) :: R ∧ s1.size_ = s.size_ + 1 := by
  obtain ⟨res, e, hi⟩ := insert_of_not_mem s pr addr h
  refine ⟨_, entries res.1, entries res.2, hi, (entries_split e).symm, ?_, rfl⟩
  simp [entries_merge, entries]

theorem values_insert_of_not_mem [LinearOrder α] (s : Set α) {value : α} (pr : Int)
    (addr : Nat) (hb : BST s.root_) (h : value ∉ values s.root_) :
    ∃ s1, s.insert value pr addr = .ok s1 ∧
      values s1.root_ = List.orderedInsert (· ≤ ·) value (values s.root_) ∧
      s1.size_ = s.size_ + 1 := by
  obtain ⟨res, e, hi⟩ := insert_of_not_mem s pr addr h
  refine ⟨_, hi, ?_, rfl⟩
  obtain ⟨b1, b2⟩ := split_bounds hb e
  rw [← values_split e, orderedInsert_between value _ _ b1 b2]
  simp [values_merge, values]

theorem bst_insert [LinearOrder α] (s : Set α) (value : α) (pr : Int) (addr : Nat)
    (hb : BST s.root_) : ∃ s1, s.insert value pr addr = .ok s1 ∧ BST s1.root_ := by
  by_cases h : value ∈ values s.root_
  · exact ⟨s, insert_of_mem s pr addr hb h, hb⟩
  · obtain ⟨s1, e, hv, -⟩ := values_insert_of_not_mem s pr addr hb h
    refine ⟨s1, e, ?_⟩
    rw [bst_iff_sorted] at *
    rw [hv]
    have hs : (values s.root_).Sorted (· ≤ ·) := hb.imp le_of_lt
    have hs1 := hs.orderedInsert value
    have hn : (List.orderedInsert (· ≤ ·) value (values s.root_)).Nodup :=
      (List.perm_orderedInsert _ _ _).nodup_iff.mpr
        (List.nodup_cons.mpr ⟨h, hb.imp ne_of_lt⟩)
    exact (hs1.lt_of_le hn)

end InsertFacts

/-! ## `erase` -/

section EraseFacts

theorem Erase_of_not_mem [LinearOrder α] (t : Node α) {value : α} (prev : Option Nat)
    (size_ : Int) (h : value ∉ values t) : Erase t value prev size_ = (t, size_) := by
  induction t generalizing prev with
  | null => rfl
  | node a v pr par l r ihl ihr =>
    simp only [values, List.mem_append, List.mem_cons, not_or] at h
    obtain ⟨hl, hv, hr⟩ := h
    unfold Erase
    split_ifs with h1 h2
    · simp [ihl _ hl]
    · simp [ihr _ hr]
    · exact absurd (le_antisymm (not_lt.mp h2) (not_lt.mp h1)) hv

theorem entries_Erase [LinearOrder α] (t : Node α) (value : α) (prev : Option Nat)
    (size_ : Int) (hb : BST t) :
    entries (Erase t value prev size_).1 = (entries t).filter (fun e => e.2.1 ≠ value) := by
  induction t generalizing prev with
  | null => rfl
  | node a v pr par l r ihl ihr =>
    obtain ⟨b1, b2, b3, b4⟩ := hb
    have el : ∀ e ∈ entries l, e.2.1 < v := fun e he =>
      b1 _ (by rw [values_eq_map]; exact List.mem_map_of_mem _ he)
    have er : ∀ e ∈ entries r, v < e.2.1 := fun e he =>
      b2 _ (by rw [values_eq_map]; exact List.mem_map_of_mem _ he)
    unfold Erase
    split_ifs with h1 h2
    · simp only [entries, List.filter_append, ihl _ b3]
      congr 1
      rw [List.filter_cons_of_pos (by simpa using ne_of_gt h1)]
      congr 1
      exact (List.filter_eq_self.mpr fun e he => by
        simpa using ne_of_gt (lt_trans h1 (er e he))).symm
    · simp only [entries, List.filter_append, ihr _ b4]
      congr 1
      · exact (List.filter_eq_self.mpr fun e he => by
          simpa using ne_of_lt (lt_trans (el e he) h2)).symm
      · rw [List.filter_cons_of_pos (by simpa using ne_of_lt h2)]
    · have hv : value = v := le_antisymm (not_lt.mp h2) (not_lt.mp h1)
      subst hv
      simp only [entries_merge, entries_setParent, entries, List.filter_append]
      rw [List.filter_cons_of_neg (by simp)]
      congr 1
      · exact (List.filter_eq_self.mpr fun e he => by
          simpa using ne_of_lt (el e he)).symm
      · exact (List.filter_eq_self.mpr fun e he => by
          simpa using ne_of_gt (er e he)).symm

theorem values_Erase [LinearOrder α] (t : Node α) (value : α) (prev : Option Nat)
    (size_ : Int) (hb : BST t) :
    values (Erase t value prev size_).1 = (values t).erase value := by
  have hn : (values t).Nodup := ((bst_iff_sorted t).mp hb).imp ne_of_lt
  rw [hn.erase_eq_filter, values_eq_map, values_eq_map, entries_Erase t value prev size_ hb,
    List.filter_map]
  congr 1
  apply List.filter_congr
  intro e _
  by_cases h : e.2.1 = value <;> simp [h]

theorem size_Erase [LinearOrder α] (t : Node α) (value : α) (prev : Option Nat)
    (size_ : Int) (hb : BST t) (h : value ∈ values t) :
    (Erase t value prev size_).2 = size_ - 1 := by
  induction t generalizing prev with
  | null => simp [values] at h
  | node a v pr par l r ihl ihr =>
    obtain ⟨b1, b2, b3, b4⟩ := hb
    simp only [values, List.mem_append, List.mem_cons] at h
    unfold Erase
    split_ifs with h1 h2
    · rcases h with h | h | h
      · exact ihl _ b3 h
      · exact absurd h1 (by rw [h]; exact lt_irrefl _)
      · exact absurd (lt_trans h1 (b2 _ h)) (lt_irrefl _)
    · rcases h with h | h | h
      · exact absurd (lt_trans h2 (b1 _ h)) (lt_irrefl _)
      · exact absurd h2 (by rw [h]; exact lt_irrefl _)
      · exact ihr _ b4 h
    · rfl

theorem bst_Erase [LinearOrder α] (t : Node α) (value : α) (prev : Option Nat)
    (size_ : Int) (hb : BST t) : BST (Erase t value prev size_).1 := by
  have h := hb
  rw [bst_iff_sorted] at h ⊢
  rw [values_Erase t value prev size_ hb]
  exact h.sublist (List.erase_sublist _ _)

end EraseFacts

/-! ## Heap order -/

section HeapFacts

theorem heapOrdered_setParent (p : Option Nat) (t : Node α) :
    HeapOrdered (setParent p t) ↔ HeapOrdered t := by
  cases t <;> simp [setParent, HeapOrdered]

theorem heapOrdered_UpdateParent (t : Node α) :
    HeapOrdered (UpdateParent t) ↔ HeapOrdered t := by
  cases t <;> simp [UpdateParent, HeapOrdered, heapOrdered_setParent]

theorem priorityOf_mem {t : Node α} {p : Int} (h : p ∈ t.priorityOf) : p ∈ priorities t := by
  cases t with
  | null => simp [priorityOf] at h
  | node a v q par l r =>
    simp only [priorityOf, Option.mem_def, Option.some.injEq] at h
    simp [priorities, h]

/-- In a heap-ordered tree the root holds a maximal priority. -/
theorem HeapOrdered.le_root {t : Node α} (h : HeapOrdered t) {p : Int}
    (hp : p ∈ t.priorityOf) : ∀ q ∈ priorities t, q ≤ p := by
  cases t with
  | null => simp [priorities]
  | node a v pr par l r =>
    simp only [priorityOf, Option.mem_def, Option.some.injEq] at hp
    subst hp
    obtain ⟨h1, h2, -, -⟩ := h
    simp only [priorities, List.mem_append, List.mem_cons]
    rintro q (hq | rfl | hq)
    · exact h1 q hq
    · exact le_refl _
    · exact le_of_lt (h2 q hq)

theorem HeapOrdered.maxHeap {t : Node α} (h : HeapOrdered t) : MaxHeap t := by
  induction t with
  | null => trivial
  | node a v pr par l r ihl ihr =>
    obtain ⟨h1, h2, h3, h4⟩ := h
    exact ⟨fun q hq => h1 q (priorityOf_mem hq), fun q hq => le_of_lt (h2 q (priorityOf_mem hq)),
      ihl h3, ihr h4⟩

theorem heapOrdered_merge {l r : Node α} (hl : HeapOrdered l) (hr : HeapOrdered r) :
    HeapOrdered (merge l r) := by
  induction l, r using merge.induct with
  | case1 rhs => simpa [merge] using hr
  | case2 la lv lp lpar ll lr => simpa [merge] using hl
  | case3 la lv lp lpar ll lr ra rv rp rpar rl rr h ih =>
    rw [merge, if_pos h, heapOrdered_UpdateParent]
    obtain ⟨h1, h2, h3, h4⟩ := hl
    refine ⟨h1, ?_, h3, ih h4 hr⟩
    intro q hq
    rw [priorities_merge, List.mem_append] at hq
    rcases hq with hq | hq
    · exact h2 q hq
    · exact lt_of_le_of_lt (hr.le_root (by simp [priorityOf]) q hq) h
  | case4 la lv lp lpar ll lr ra rv rp rpar rl rr h ih =>
    rw [merge, if_neg h, heapOrdered_UpdateParent]
    obtain ⟨h1, h2, h3, h4⟩ := hr
    refine ⟨?_, h2, ih hl h3, h4⟩
    intro q hq
    rw [priorities_merge, List.mem_append] at hq
    rcases hq with hq | hq
    · exact le_trans (hl.le_root (by simp [priorityOf]) q hq) (not_lt.mp h)
    · exact h1 q hq

theorem heapOrdered_split [LinearOrder α] {t : Node α} {value : α} {res : Node α × Node α}
    (hh : HeapOrdered t) (h : split t value = .ok res) :
    HeapOrdered res.1 ∧ HeapOrdered res.2 := by
  induction t generalizing res with
  | null => simp [split] at h; subst h; exact ⟨trivial, trivial⟩
  | node a v pr par l r ihl ihr =>
    obtain ⟨h1, h2, h3, h4⟩ := hh
    unfold split at h
    split_ifs at h with c1 c2
    · cases hl : split l value with
      | error e => simp [hl] at h
      | ok rl =>
        simp only [hl, Except.ok.injEq] at h
        subst h
        obtain ⟨i1, i2⟩ := ihl h3 hl
        show HeapOrdered (UpdateParent rl.1) ∧ HeapOrdered (UpdateParent (node a v pr par rl.2 r))
        refine ⟨(heapOrdered_UpdateParent _).mpr i1, (heapOrdered_UpdateParent _).mpr ?_⟩
        refine ⟨fun q hq => h1 q ?_, h2, i2, h4⟩
        rw [← priorities_split hl]
        exact List.mem_append_right _ hq
    · cases hr : split r value with
      | error e => simp [hr] at h
      | ok rr =>
        simp only [hr, Except.ok.injEq] at h
        subst h
        obtain ⟨i1, i2⟩ := ihr h4 hr
        show HeapOrdered (UpdateParent (node a v pr par l rr.1)) ∧ HeapOrdered (UpdateParent rr.2)
        refine ⟨(heapOrdered_UpdateParent _).mpr ?_, (heapOrdered_UpdateParent _).mpr i2⟩
        refine ⟨h1, fun q hq => h2 q ?_, h3, i1⟩
        rw [← priorities_split hr]
        exact List.mem_append_left _ hq

theorem priorities_Erase_subset [LinearOrder α] (t : Node α) (value : α) (prev : Option Nat)
    (size_ : Int) (hb : BST t) :
    ∀ q ∈ priorities (Erase t value prev size_).1, q ∈ priorities t := by
  intro q hq
  rw [priorities_eq_map, entries_Erase t value prev size_ hb] at hq
  rw [priorities_eq_map]
  obtain ⟨e, he, rfl⟩ := List.mem_map.mp hq
  exact List.mem_map_of_mem _ (List.mem_filter.mp he).1

theorem heapOrdered_Erase [LinearOrder α] (t : Node α) (value : α) (prev : Option Nat)
    (size_ : Int) (hb : BST t) (hh : HeapOrdered t) :
    HeapOrdered (Erase t value prev size_).1 := by
  induction t generalizing prev with
  | null => trivial
  | node a v pr par l r ihl ihr =>
    obtain ⟨b1, b2, b3, b4⟩ := hb
    obtain ⟨h1, h2, h3, h4⟩ := hh
    unfold Erase
    split_ifs with c1 c2
    · exact ⟨fun q hq => h1 q (priorities_Erase_subset l value _ size_ b3 q hq), h2,
        ihl _ b3 h3, h4⟩
    · exact ⟨h1, fun q hq => h2 q (priorities_Erase_subset r value _ size_ b4 q hq), h3,
        ihr _ b4 h4⟩
    · exact heapOrdered_merge ((heapOrdered_setParent _ _).mpr h3)
        ((heapOrdered_setParent _ _).mpr h4)

theorem heapOrdered_insert [LinearOrder α] (s : Set α) (value : α) (pr : Int) (addr : Nat)
    (hb : BST s.root_) (hh : HeapOrdered s.root_) :
    ∀ s1, s.insert value pr addr = .ok s1 → HeapOrdered s1.root_ := by
  intro s1 e1
  by_cases h : value ∈ values s.root_
  · rw [insert_of_mem s pr addr hb h] at e1
    cases e1
    exact hh
  · obtain ⟨res, e, hi⟩ := insert_of_not_mem s pr addr h
    rw [hi] at e1
    cases e1
    obtain ⟨i1, i2⟩ := heapOrdered_split hh e
    refine heapOrdered_merge (heapOrdered_merge i1 ?_) i2
    simp [HeapOrdered, priorities]

end HeapFacts

/-! ## Parent links -/

section ParentFacts

theorem childrenLinked_setParent (p : Option Nat) (t : Node α) :
    ChildrenLinked (setParent p t) ↔ ChildrenLinked t := by
  cases t <;> simp [setParent, ChildrenLinked]

theorem parentOf_setParent (p : Option Nat) {t : Node α} (h : setParent p t ≠ null) :
    (setParent p t).parentOf = p := by
  cases t with
  | null => exact absurd rfl h
  | node a v pr par l r => rfl

theorem childrenLinked_UpdateParent_node (a : Nat) (v : α) (pr : Int) (par : Option Nat)
    (l r : Node α) :
    ChildrenLinked (UpdateParent (node a v pr par l r)) ↔ ChildrenLinked l ∧ ChildrenLinked r := by
  simp only [UpdateParent, ChildrenLinked, childrenLinked_setParent]
  constructor
  · rintro ⟨-, -, h⟩
    exact h
  · intro h
    exact ⟨parentOf_setParent _, parentOf_setParent _, h⟩

theorem childrenLinked_UpdateParent {t : Node α} (h : ChildrenLinked t) :
    ChildrenLinked (UpdateParent t) := by
  cases t with
  | null => trivial
  | node a v pr par l r =>
    exact (childrenLinked_UpdateParent_node a v pr par l r).mpr ⟨h.2.2.1, h.2.2.2⟩

theorem merge_null_right (l : Node α) : merge l null = l := by
  cases l <;> simp [merge]

theorem childrenLinked_merge {l r : Node α} (hl : ChildrenLinked l) (hr : ChildrenLinked r) :
    ChildrenLinked (merge l r) := by
  induction l, r using merge.induct with
  | case1 rhs => simpa [merge] using hr
  | case2 la lv lp lpar ll lr => simpa [merge] using hl
  | case3 la lv lp lpar ll lr ra rv rp rpar rl rr h ih =>
    rw [merge, if_pos h, childrenLinked_UpdateParent_node]
    exact ⟨hl.2.2.1, ih hl.2.2.2 hr⟩
  | case4 la lv lp lpar ll lr ra rv rp rpar rl rr h ih =>
    rw [merge, if_neg h, childrenLinked_UpdateParent_node]
    exact ⟨ih hl hr.2.2.1, hr.2.2.2⟩

/-- Which root `merge` keeps on top: the left one exactly when its priority is greater. -/
theorem merge_top {l r : Node α} {lp rp : Int} (hl : l.priorityOf = some lp)
    (hr : r.priorityOf = some rp) :
    (lp > rp → (merge l r).parentOf = l.parentOf ∧ (merge l r).priorityOf = some lp) ∧
      (¬ lp > rp → (merge l r).parentOf = r.parentOf ∧ (merge l r).priorityOf = some rp) := by
  cases l with
  | null => simp [priorityOf] at hl
  | node la lv lq lpar ll lr =>
    cases r with
    | null => simp [priorityOf] at hr
    | node ra rv rq rpar rl rr =>
      simp only [priorityOf, Option.some.injEq] at hl hr
      subst hl hr
      constructor
      · intro h
        rw [merge, if_pos h]
        exact ⟨rfl, rfl⟩
      · intro h
        rw [merge, if_neg h]
        exact ⟨rfl, rfl⟩

theorem childrenLinked_split [LinearOrder α] {t : Node α} {value : α} {res : Node α × Node α}
    (hc : ChildrenLinked t) (h : split t value = .ok res) :
    ChildrenLinked res.1 ∧ ChildrenLinked res.2 := by
  induction t generalizing res with
  | null => simp [split] at h; subst h; exact ⟨trivial, trivial⟩
  | node a v pr par l r ihl ihr =>
    obtain ⟨-, -, h3, h4⟩ := hc
    unfold split at h
    split_ifs at h with c1 c2
    · cases hl : split l value with
      | error e => simp [hl] at h
      | ok rl =>
        simp only [hl, Except.ok.injEq] at h
        subst h
        obtain ⟨i1, i2⟩ := ihl h3 hl
        exact ⟨childrenLinked_UpdateParent i1,
          (childrenLinked_UpdateParent_node _ _ _ _ _ _).mpr ⟨i2, h4⟩⟩
    · cases hr : split r value with
      | error e => simp [hr] at h
      | ok rr =>
        simp only [hr, Except.ok.injEq] at h
        subst h
        obtain ⟨i1, i2⟩ := ihr h4 hr
        exact ⟨(childrenLinked_UpdateParent_node _ _ _ _ _ _).mpr ⟨h3, i1⟩,
          childrenLinked_UpdateParent i2⟩

/-- After `split` one half is rooted at the old root, with the old `parent` field; the other
half holds priorities that lose against the old root in `merge`. -/
theorem split_root [LinearOrder α] {a : Nat} {v : α} {pr : Int} {par : Option Nat}
    {l r : Node α} {value : α} {res : Node α × Node α}
    (hh : HeapOrdered (node a v pr par l r)) (h : split (node a v pr par l r) value = .ok res) :
    (res.2.parentOf = par ∧ res.2.priorityOf = some pr ∧ ∀ q ∈ priorities res.1, q ≤ pr) ∨
      (res.1.parentOf = par ∧ res.1.priorityOf = some pr ∧ ∀ q ∈ priorities res.2, q < pr) := by
  obtain ⟨h1, h2, -, -⟩ := hh
  unfold split at h
  split_ifs at h with c1 c2
  · cases hl : split l value with
    | error e => simp [hl] at h
    | ok rl =>
      simp only [hl, Except.ok.injEq] at h
      subst h
      refine Or.inl ⟨rfl, rfl, fun q hq => h1 q ?_⟩
      rw [← priorities_split hl]
      exact List.mem_append_left _ (by simpa using hq)
  · cases hr : split r value with
    | error e => simp [hr] at h
    | ok rr =>
      simp only [hr, Except.ok.injEq] at h
      subst h
      refine Or.inr ⟨rfl, rfl, fun q hq => h2 q ?_⟩
      rw [← priorities_split hr]
      exact List.mem_append_right _ (by simpa using hq)

theorem priorityOf_cases (t : Node α) :
    t = null ∨ ∃ p, t.priorityOf = some p := by
  cases t with
  | null => exact Or.inl rfl
  | node a v p par l r => exact Or.inr ⟨p, rfl⟩

/-- The root that `Insert` returns has no parent. -/
theorem parentOf_Insert [LinearOrder α] {t : Node α} {value : α} {res : Node α × Node α}
    (pr : Int) (addr : Nat) (hh : HeapOrdered t) (hp : t.parentOf = none)
    (h : split t value = .ok res) :
    (merge (merge res.1 (node addr value pr none null null)) res.2).parentOf = none := by
  have hV : (node addr value pr none null null : Node α).priorityOf = some pr := rfl
  cases t with
  | null =>
    simp [split] at h
    subst h
    simp [merge, parentOf]
  | node a v p par l r =>
    simp only [parentOf] at hp
    subst hp
    rcases split_root hh h with ⟨r1, r2, r3⟩ | ⟨l1, l2, l3⟩
    · -- the old root heads the right half
      have hm1 : ∃ m, (merge res.1 (node addr value pr none null null)).priorityOf = some m ∧
          (p < m → (merge res.1 (node addr value pr none null null)).parentOf = none) := by
        rcases priorityOf_cases res.1 with e | ⟨lp, e⟩
        · rw [e]
          exact ⟨pr, by simp [merge, priorityOf], fun _ => by simp [merge, parentOf]⟩
        · by_cases c : lp > pr
          · obtain ⟨-, t2⟩ := (merge_top e hV).1 c
            exact ⟨lp, t2, fun hlt =>
              absurd (r3 lp (priorityOf_mem (by simp [e]))) (not_le.mpr hlt)⟩
          · obtain ⟨t1, t2⟩ := (merge_top e hV).2 c
            exact ⟨pr, t2, fun _ => t1⟩
      obtain ⟨m, e1, e2⟩ := hm1
      by_cases c : m > p
      · rw [((merge_top e1 r2).1 c).1]
        exact e2 c
      · rw [((merge_top e1 r2).2 c).1]
        exact r1
    · -- the old root heads the left half
      have hm1 : ∃ m, (merge res.1 (node addr value pr none null null)).priorityOf = some m ∧
          p ≤ m ∧ (merge res.1 (node addr value pr none null null)).parentOf = none := by
        by_cases c : p > pr
        · obtain ⟨t1, t2⟩ := (merge_top l2 hV).1 c
          exact ⟨p, t2, le_refl _, t1.trans l1⟩
        · obtain ⟨t1, t2⟩ := (merge_top l2 hV).2 c
          exact ⟨pr, t2, not_lt.mp c, t1⟩
      obtain ⟨m, e1, e2, e3⟩ := hm1
      rcases priorityOf_cases res.2 with e | ⟨rp, e⟩
      · rw [e, merge_null_right]
        exact e3
      · have c : m > rp := lt_of_lt_of_le (l3 rp (priorityOf_mem (by simp [e]))) e2
        rw [((merge_top e1 e).1 c).1]
        exact e3

theorem parentConsistent_insert [LinearOrder α] (s : Set α) (value : α) (pr : Int)
    (addr : Nat) (hb : BST s.root_) (hh : HeapOrdered s.root_)
    (hp : ParentConsistent s.root_) :
    ∀ s1, s.insert value pr addr = .ok s1 → ParentConsistent s1.root_ := by
  intro s1 e1
  by_cases h : value ∈ values s.root_
  · rw [insert_of_mem s pr addr hb h] at e1
    cases e1
    exact hp
  · obtain ⟨res, e, hi⟩ := insert_of_not_mem s pr addr h
    rw [hi] at e1
    cases e1
    obtain ⟨i1, i2⟩ := childrenLinked_split hp.1 e
    refine ⟨childrenLinked_merge (childrenLinked_merge i1 ?_) i2,
      parentOf_Insert pr addr hh hp.2 e⟩
    simp [ChildrenLinked]

theorem merge_parentOf_of_both {l r : Node α} {p : Option Nat}
    (hl : l ≠ null → l.parentOf = p) (hr : r ≠ null → r.parentOf = p)
    (h : merge l r ≠ null) : (merge l r).parentOf = p := by
  rcases priorityOf_cases l with e | ⟨lp, el⟩
  · subst e
    rw [merge] at h ⊢
    exact hr h
  · have hln : l ≠ null := by rintro rfl; simp [priorityOf] at el
    rcases priorityOf_cases r with e | ⟨rp, er⟩
    · subst e
      rw [merge_null_right]
      exact hl hln
    · have hrn : r ≠ null := by rintro rfl; simp [priorityOf] at er
      by_cases c : lp > rp
      · rw [((merge_top el er).1 c).1]
        exact hl hln
      · rw [((merge_top el er).2 c).1]
        exact hr hrn

/-- `Erase` keeps the links, and the node it leaves in the slot has the parent the old
occupant had. -/
theorem childrenLinked_Erase [LinearOrder α] (t : Node α) (value : α) (prev : Option Nat)
    (size_ : Int) (hc : ChildrenLinked t) (hp : t ≠ null → t.parentOf = prev) :
    ChildrenLinked (Erase t value prev size_).1 ∧
      ((Erase t value prev size_).1 ≠ null → (Erase t value prev size_).1.parentOf = prev) := by
  induction t generalizing prev with
  | null => exact ⟨trivial, fun h => absurd rfl h⟩
  | node a v pr par l r ihl ihr =>
    obtain ⟨h1, h2, h3, h4⟩ := hc
    have hpar : par = prev := hp (by simp)
    unfold Erase
    split_ifs with c1 c2
    · obtain ⟨i1, i2⟩ := ihl (some a) h3 h1
      exact ⟨⟨i2, h2, i1, h4⟩, fun _ => hpar⟩
    · obtain ⟨i1, i2⟩ := ihr (some a) h4 h2
      exact ⟨⟨h1, i2, h3, i1⟩, fun _ => hpar⟩
    · refine ⟨childrenLinked_merge ((childrenLinked_setParent _ _).mpr h3)
        ((childrenLinked_setParent _ _).mpr h4), ?_⟩
      exact merge_parentOf_of_both (parentOf_setParent _) (parentOf_setParent _)

theorem parentConsistent_erase [LinearOrder α] (s : Set α) (value : α)
    (hp : ParentConsistent s.root_) : ParentConsistent (s.erase value).root_ := by
  obtain ⟨i1, i2⟩ := childrenLinked_Erase s.root_ value none s.size_ hp.1 (fun _ => hp.2)
  refine ⟨i1, ?_⟩
  by_cases h : (Erase s.root_ value none s.size_).1 = null
  · show (Erase s.root_ value none s.size_).1.parentOf = none
    rw [h]
    rfl
  · exact i2 h

end ParentFacts

/-! ## Sequences of calls -/

section Runs

theorem wellFormed_init [LinearOrder α] : (Set.init : Set α).WellFormed :=
  ⟨trivial, trivial, ⟨trivial, rfl⟩, rfl⟩

theorem wellFormed_insert [LinearOrder α] (s : Set α) (value : α) (pr : Int) (addr : Nat)
    (hw : s.WellFormed) :
    ∃ s1, s.insert value pr addr = .ok s1 ∧ s1.WellFormed ∧
      ∀ x, x ∈ values s1.root_ ↔ x = value ∨ x ∈ values s.root_ := by
  obtain ⟨hb, hh, hp, hs⟩ := hw
  obtain ⟨s1, e, hb1⟩ := bst_insert s value pr addr hb
  refine ⟨s1, e, ⟨hb1, heapOrdered_insert s value pr addr hb hh s1 e,
    parentConsistent_insert s value pr addr hb hh hp s1 e, ?_⟩, ?_⟩
  · by_cases h : value ∈ values s.root_
    · rw [insert_of_mem s pr addr hb h] at e
      cases e
      exact hs
    · obtain ⟨s2, e2, hv, hsz⟩ := values_insert_of_not_mem s pr addr hb h
      rw [e] at e2
      cases e2
      rw [hsz, hs, count_eq_values_length, count_eq_values_length, hv,
        List.orderedInsert_length]
      push_cast
      rfl
  · intro x
    by_cases h : value ∈ values s.root_
    · rw [insert_of_mem s pr addr hb h] at e
      cases e
      constructor
      · exact Or.inr
      · rintro (rfl | hx)
        · exact h
        · exact hx
    · obtain ⟨s2, e2, hv, -⟩ := values_insert_of_not_mem s pr addr hb h
      rw [e] at e2
      cases e2
      rw [hv, List.mem_orderedInsert]

theorem wellFormed_erase [LinearOrder α] (s : Set α) (value : α) (hw : s.WellFormed) :
    (s.erase value).WellFormed := by
  obtain ⟨hb, hh, hp, hs⟩ := hw
  refine ⟨bst_Erase _ _ _ _ hb, heapOrdered_Erase _ _ _ _ hb hh,
    parentConsistent_erase s value hp, ?_⟩
  show (Erase s.root_ value none s.size_).2 = count (Erase s.root_ value none s.size_).1
  by_cases h : value ∈ values s.root_
  · rw [size_Erase _ _ _ _ hb h, count_eq_values_length, values_Erase _ _ _ _ hb,
      List.length_erase_of_mem h, hs, count_eq_values_length]
    have := List.length_pos_of_mem h
    omega
  · rw [Erase_of_not_mem _ _ _ h]
    exact hs

theorem wellFormed_step [LinearOrder α] (s : Set α) (op : Op α) (hw : s.WellFormed) :
    ∃ s1, s.step op = .ok s1 ∧ s1.WellFormed := by
  cases op with
  | insert value pr addr =>
    obtain ⟨s1, e, h, -⟩ := wellFormed_insert s value pr addr hw
    exact ⟨s1, e, h⟩
  | erase value => exact ⟨_, rfl, wellFormed_erase s value hw⟩

theorem wellFormed_run [LinearOrder α] (s : Set α) (ops : List (Op α)) (hw : s.WellFormed) :
    ∃ s1, s.run ops = .ok s1 ∧ s1.WellFormed := by
  induction ops generalizing s with
  | nil => exact ⟨s, rfl, hw⟩
  | cons op ops ih =>
    obtain ⟨s1, e, h1⟩ := wellFormed_step s op hw
    obtain ⟨s2, e2, h2⟩ := ih s1 h1
    exact ⟨s2, by simp [Set.run, e, e2], h2⟩

theorem wellFormed_insertAll [LinearOrder α] (s : Set α) (xs : List (α × Int × Nat))
    (hw : s.WellFormed) :
    ∃ s1, Set.insertAll s xs = .ok s1 ∧ s1.WellFormed ∧
      ∀ x, x ∈ values s1.root_ ↔ x ∈ values s.root_ ∨ x ∈ xs.map (fun e => e.1) := by
  induction xs generalizing s with
  | nil => exact ⟨s, rfl, hw, by simp⟩
  | cons e xs ih =>
    obtain ⟨x, pr, addr⟩ := e
    obtain ⟨s1, e1, h1, m1⟩ := wellFormed_insert s x pr addr hw
    obtain ⟨s2, e2, h2, m2⟩ := ih s1 h1
    refine ⟨s2, by simp [Set.insertAll, e1, e2], h2, ?_⟩
    intro y
    rw [m2, m1]
    simp only [List.map_cons, List.mem_cons]
    tauto

theorem wellFormed_Copy [LinearOrder α] (draw : Nat → Int × Nat) (t : Node α)
    (st : Set α × Nat) (hw : st.1.WellFormed) :
    ∃ st1, Set.Copy draw t st = .ok st1 ∧ st1.1.WellFormed ∧
      ∀ x, x ∈ values st1.1.root_ ↔ x ∈ values st.1.root_ ∨ x ∈ values t := by
  induction t generalizing st with
  | null => exact ⟨st, rfl, hw, by simp [values]⟩
  | node a v pr par l r ihl ihr =>
    obtain ⟨s1, e1, h1, m1⟩ := wellFormed_insert st.1 v (draw st.2).1 (draw st.2).2 hw
    obtain ⟨st2, e2, h2, m2⟩ := ihl (s1, st.2 + 1) h1
    obtain ⟨st3, e3, h3, m3⟩ := ihr st2 h2
    refine ⟨st3, by simp [Set.Copy, e1, e2, e3], h3, ?_⟩
    intro y
    rw [m3, m2, m1]
    simp only [values, List.mem_append, List.mem_cons]
    tauto

/-- Two strictly increasing lists with the same members are equal. -/
theorem sorted_ext [LinearOrder α] {l1 l2 : List α} (h1 : l1.Sorted (· < ·))
    (h2 : l2.Sorted (· < ·)) (h : ∀ x, x ∈ l1 ↔ x ∈ l2) : l1 = l2 :=
  List.eq_of_perm_of_sorted
    ((List.perm_ext_iff_of_nodup (h1.imp ne_of_lt) (h2.imp ne_of_lt)).mpr h) h1 h2

theorem wellFormed_copy [LinearOrder α] (other : Set α) (draw : Nat → Int × Nat)
    (hw : other.WellFormed) :
    ∃ s1, other.copy draw = .ok s1 ∧ s1.WellFormed ∧ values s1.root_ = values other.root_ := by
  obtain ⟨st, e, h, m⟩ := wellFormed_Copy draw other.root_ (⟨null, 0⟩, 0) wellFormed_init
  have hv : values st.1.root_ = values other.root_ :=
    sorted_ext ((bst_iff_sorted _).mp h.1) ((bst_iff_sorted _).mp hw.1)
      (fun x => by rw [m]; simp [values])
  refine ⟨⟨st.1.root_, other.size_⟩, by simp [Set.copy, e], ⟨h.1, h.2.1, h.2.2.1, ?_⟩, hv⟩
  show other.size_ = count st.1.root_
  rw [hw.2.2.2, count_eq_values_length, count_eq_values_length, hv]

theorem wellFormed_ofRange [LinearOrder α] (xs : List (α × Int × Nat)) :
    ∃ s1, Set.ofRange xs = .ok s1 ∧ s1.WellFormed ∧
      ∀ x, x ∈ values s1.root_ ↔ x ∈ xs.map (fun e => e.1) := by
  obtain ⟨s1, e, h, m⟩ := wellFormed_insertAll ⟨null, 0⟩ xs wellFormed_init
  exact ⟨s1, e, h, fun x => by rw [m]; simp [values]⟩

theorem wellFormed_calls [LinearOrder α] (s : Set α) (cs : List (Call α))
    (hw : s.WellFormed) : ∃ s1, s.calls cs = .ok s1 ∧ s1.WellFormed := by
  induction cs generalizing s with
  | nil => exact ⟨s, rfl, hw⟩
  | cons c cs ih =>
    have hc : ∃ s1, s.call c = .ok s1 ∧ s1.WellFormed := by
      cases c with
      | init => exact ⟨_, rfl, wellFormed_init⟩
      | ofRange xs =>
        obtain ⟨s1, e, h, -⟩ := wellFormed_ofRange xs
        exact ⟨s1, e, h⟩
      | insert value pr addr =>
        obtain ⟨s1, e, h, -⟩ := wellFormed_insert s value pr addr hw
        exact ⟨s1, e, h⟩
      | erase value => exact ⟨_, rfl, wellFormed_erase s value hw⟩
      | copy draw =>
        obtain ⟨s1, e, h, -⟩ := wellFormed_copy s draw hw
        exact ⟨s1, e, h⟩
    obtain ⟨s1, e, h1⟩ := hc
    obtain ⟨s2, e2, h2⟩ := ih s1 h1
    exact ⟨s2, by simp [Set.calls, e, e2], h2⟩

end Runs

/-! ## `lower_bound` -/

section LowerBound

/-- The loop of `lower_bound` on a subtree with the BST property: it stops at the node with
the least value not less than `val` when the subtree has one, and falls back to the candidate
`prev` recorded on the way down otherwise. -/
theorem lowerBoundLoop_spec [LinearOrder α] (s : Set α) (prev : Option Nat) {cur : Node α}
    (val : α) (hb : BST cur) :
    ((∃ x ∈ values cur, val ≤ x) →
        ∃ a m p, s.lowerBoundLoop prev cur val = ⟨some a, false⟩ ∧ (a, m, p) ∈ entries cur ∧
          val ≤ m ∧ ∀ x ∈ values cur, val ≤ x → m ≤ x) ∧
      ((∀ x ∈ values cur, x < val) →
        s.lowerBoundLoop prev cur val =
          match prev with
          | none => s.end_
          | some q => ⟨some q, false⟩) := by
  induction cur generalizing prev with
  | null =>
    refine ⟨fun ⟨x, hx, _⟩ => by simp [values] at hx, fun _ => ?_⟩
    cases prev <;> rfl
  | node a v pr par l r ihl ihr =>
    obtain ⟨b1, b2, b3, b4⟩ := hb
    have hun : s.lowerBoundLoop prev (node a v pr par l r) val =
        if val < v then s.lowerBoundLoop (some a) l val
        else if v < val then s.lowerBoundLoop prev r val
        else ⟨some a, false⟩ := by
      cases prev <;> rfl
    rw [hun]
    simp only [values, List.mem_append, List.mem_cons]
    split_ifs with c1 c2
    · obtain ⟨i1, i2⟩ := ihl (some a) b3
      refine ⟨fun _ => ?_, fun h => absurd (h v (Or.inr (Or.inl rfl))) (not_lt.mpr (le_of_lt c1))⟩
      by_cases hx : ∃ x ∈ values l, val ≤ x
      · obtain ⟨a1, m, p, e, hm, h1, h2⟩ := i1 hx
        have hml : m ∈ values l := by
          rw [values_eq_map]
          exact List.mem_map_of_mem (fun e => e.2.1) hm
        refine ⟨a1, m, p, e, by simp [entries, hm], h1, ?_⟩
        rintro x (hxl | rfl | hxr) hle
        · exact h2 x hxl hle
        · exact le_of_lt (b1 m hml)
        · exact le_of_lt (lt_trans (b1 m hml) (b2 x hxr))
      · have hall : ∀ x ∈ values l, x < val := fun x hxl =>
          not_le.mp fun hle => hx ⟨x, hxl, hle⟩
        refine ⟨a, v, pr, i2 hall, by simp [entries], le_of_lt c1, ?_⟩
        rintro x (hxl | rfl | hxr) hle
        · exact absurd (hall x hxl) (not_lt.mpr hle)
        · exact le_refl _
        · exact le_of_lt (b2 x hxr)
    · obtain ⟨i1, i2⟩ := ihr prev b4
      constructor
      · rintro ⟨x, hx | rfl | hx, hle⟩
        · exact absurd (lt_trans (b1 x hx) c2) (not_lt.mpr hle)
        · exact absurd c2 (not_lt.mpr hle)
        · obtain ⟨a1, m, p, e, hm, h1, h2⟩ := i1 ⟨x, hx, hle⟩
          refine ⟨a1, m, p, e, by simp [entries, hm], h1, ?_⟩
          rintro y (hyl | rfl | hyr) hle1
          · exact absurd (lt_trans (b1 y hyl) c2) (not_lt.mpr hle1)
          · exact absurd c2 (not_lt.mpr hle1)
          · exact h2 y hyr hle1
      · intro h
        exact i2 fun x hx => h x (Or.inr (Or.inr hx))
    · have hv : val = v := le_antisymm (not_lt.mp c2) (not_lt.mp c1)
      subst hv
      refine ⟨fun _ => ⟨a, val, pr, rfl, by simp [entries], le_refl _, ?_⟩,
        fun h => absurd (h val (Or.inr (Or.inl rfl))) (lt_irrefl _)⟩
      rintro x - hle
      exact hle

end LowerBound

/-! ## Paths and the iterator -/

section Paths

theorem entries_plug (c : List (Frame α)) (t : Node α) :
    entries (plug c t) = entriesBefore c ++ entries t ++ entriesAfter c := by
  induction c generalizing t with
  | nil => simp [plug, entriesBefore, entriesAfter]
  | cons f c ih => cases f <;> simp [plug, entriesBefore, entriesAfter, ih, entries]

theorem plug_append (c1 c2 : List (Frame α)) (t : Node α) :
    plug (c1 ++ c2) t = plug c2 (plug c1 t) := by
  induction c1 generalizing t with
  | nil => rfl
  | cons f c ih => cases f <;> simp [plug, ih]

theorem entriesBefore_append (c1 c2 : List (Frame α)) :
    entriesBefore (c1 ++ c2) = entriesBefore c2 ++ entriesBefore c1 := by
  induction c1 with
  | nil => simp [entriesBefore]
  | cons f c ih => cases f <;> simp [entriesBefore, ih]

theorem entriesAfter_append (c1 c2 : List (Frame α)) :
    entriesAfter (c1 ++ c2) = entriesAfter c1 ++ entriesAfter c2 := by
  induction c1 with
  | nil => simp [entriesAfter]
  | cons f c ih => cases f <;> simp [entriesAfter, ih]

/-- Every node of a tree sits below some path, which splits the in-order sequence around
it. -/
theorem exists_path (mem : Node α) {E1 E2 : List (Nat × α × Int)} {e : Nat × α × Int}
    (h : entries mem = E1 ++ e :: E2) :
    ∃ c par l r, mem = plug c (node e.1 e.2.1 e.2.2 par l r) ∧
      E1 = entriesBefore c ++ entries l ∧ E2 = entries r ++ entriesAfter c := by
  induction mem generalizing E1 E2 with
  | null => simp [entries] at h
  | node a v p par l r ihl ihr =>
    rw [entries, List.append_eq_append_iff] at h
    rcases h with ⟨a1, h1, h2⟩ | ⟨c1, h1, h2⟩
    · cases a1 with
      | nil =>
        simp only [List.nil_append, List.cons.injEq] at h2
        obtain ⟨rfl, rfl⟩ := h2
        exact ⟨[], par, l, r, rfl, by simp [h1, entriesBefore], by simp [entriesAfter]⟩
      | cons x a2 =>
        simp only [List.cons_append, List.cons.injEq] at h2
        obtain ⟨rfl, h3⟩ := h2
        obtain ⟨c, par1, l1, r1, e1, e2, e3⟩ := ihr h3
        refine ⟨c ++ [.right a v p par l], par1, l1, r1, ?_, ?_, ?_⟩
        · rw [plug_append, ← e1]
          rfl
        · rw [entriesBefore_append, h1, e2]
          simp [entriesBefore]
        · rw [entriesAfter_append, e3]
          simp [entriesAfter]
    · cases c1 with
      | nil =>
        simp only [List.nil_append, List.cons.injEq] at h2
        obtain ⟨rfl, rfl⟩ := h2
        exact ⟨[], par, l, r, rfl, by simpa [entriesBefore] using h1.symm,
          by simp [entriesAfter]⟩
      | cons x c2 =>
        simp only [List.cons_append, List.cons.injEq] at h2
        obtain ⟨rfl, h3⟩ := h2
        obtain ⟨c, par1, l1, r1, e1, e2, e3⟩ := ihl h1
        refine ⟨c ++ [.left a v p par r], par1, l1, r1, ?_, ?_, ?_⟩
        · rw [plug_append, ← e1]
          rfl
        · rw [entriesBefore_append, e2]
          simp [entriesBefore]
        · rw [entriesAfter_append, h3, e3]
          simp [entriesAfter]

theorem path_length_le (c : List (Frame α)) :
    c.length ≤ (entriesBefore c).length + (entriesAfter c).length := by
  induction c with
  | nil => simp
  | cons f c ih =>
    cases f <;> simp [entriesBefore, entriesAfter] <;> omega

theorem nodup_of_plug {c : List (Frame α)} {t : Node α} (h : (addrs (plug c t)).Nodup) :
    (addrs t).Nodup := by
  rw [addrs_eq_map, entries_plug, List.map_append, List.map_append] at h
  rw [addrs_eq_map]
  exact (List.nodup_append.mp (List.nodup_append.mp h).1).2.1

theorem ptr_mem_addrs {t : Node α} {a : Nat} (h : t.ptr = some a) : a ∈ addrs t := by
  cases t with
  | null => simp [ptr] at h
  | node b v pr par l r =>
    simp only [ptr, Option.some.injEq] at h
    simp [addrs, h]

theorem deref_eq_none {t : Node α} {x : Nat} (h : x ∉ addrs t) : deref t x = none := by
  induction t with
  | null => rfl
  | node a v pr par l r ihl ihr =>
    simp only [addrs, List.mem_append, List.mem_cons, not_or] at h
    obtain ⟨h1, h2, h3⟩ := h
    simp [deref, Ne.symm h2, ihl h1, ihr h3]

theorem deref_isSome {t : Node α} {x : Nat} (h : x ∈ addrs t) : ∃ n, deref t x = some n := by
  induction t with
  | null => simp [addrs] at h
  | node a v pr par l r ihl ihr =>
    by_cases c : a = x
    · exact ⟨node a v pr par l r, by simp [deref, c]⟩
    · simp only [addrs, List.mem_append, List.mem_cons] at h
      by_cases cl : x ∈ addrs l
      · obtain ⟨n, e⟩ := ihl cl
        exact ⟨n, by simp [deref, c, e]⟩
      · rcases h with h | h | h
        · exact absurd h cl
        · exact absurd h.symm c
        · obtain ⟨n, e⟩ := ihr h
          exact ⟨n, by simp [deref, c, deref_eq_none cl, e]⟩

theorem deref_node_left {a : Nat} {v : α} {pr : Int} {par : Option Nat} {l r : Node α}
    {x : Nat} (hn : (addrs (node a v pr par l r)).Nodup) (hx : x ∈ addrs l) :
    deref (node a v pr par l r) x = deref l x := by
  simp only [addrs] at hn
  have hd := (List.nodup_append.mp hn).2.2
  have c : a ≠ x := fun e => hd hx (by simp [e])
  obtain ⟨n, e⟩ := deref_isSome hx
  simp [deref, c, e]

theorem deref_node_right {a : Nat} {v : α} {pr : Int} {par : Option Nat} {l r : Node α}
    {x : Nat} (hn : (addrs (node a v pr par l r)).Nodup) (hx : x ∈ addrs r) :
    deref (node a v pr par l r) x = deref r x := by
  simp only [addrs] at hn
  have hd := (List.nodup_append.mp hn).2.2
  have hr := (List.nodup_cons.mp (List.nodup_append.mp hn).2.1).1
  have c : a ≠ x := fun e => hr (by rw [e]; exact hx)
  have cl : x ∉ addrs l := fun h => hd h (by simp [hx])
  simp [deref, c, deref_eq_none cl]

theorem deref_plug {c : List (Frame α)} {t : Node α} {x : Nat}
    (hn : (addrs (plug c t)).Nodup) (hx : x ∈ addrs t) : deref (plug c t) x = deref t x := by
  induction c generalizing t with
  | nil => rfl
  | cons f c ih =>
    cases f with
    | left a v pr par r =>
      have hn1 : (addrs (plug c (node a v pr par t r))).Nodup := hn
      have e := ih hn1 (by simp [addrs, hx])
      exact e.trans (deref_node_left (nodup_of_plug hn1) hx)
    | right a v pr par l =>
      have hn1 : (addrs (plug c (node a v pr par l t))).Nodup := hn
      have e := ih hn1 (by simp [addrs, hx])
      exact e.trans (deref_node_right (nodup_of_plug hn1) hx)

/-- Reading the address of a node of the tree returns that node. -/
theorem deref_plug_root {c : List (Frame α)} {a : Nat} {v : α} {pr : Int} {par : Option Nat}
    {l r : Node α} (hn : (addrs (plug c (node a v pr par l r))).Nodup) :
    deref (plug c (node a v pr par l r)) a = some (node a v pr par l r) := by
  rw [deref_plug hn (by simp [addrs])]
  simp [deref]

theorem childrenLinked_of_plug {c : List (Frame α)} {t : Node α}
    (h : ChildrenLinked (plug c t)) : ChildrenLinked t := by
  induction c generalizing t with
  | nil => exact h
  | cons f c ih =>
    cases f with
    | left a v pr par r =>
      have h1 : ChildrenLinked (node a v pr par t r) := ih h
      exact h1.2.2.1
    | right a v pr par l =>
      have h1 : ChildrenLinked (node a v pr par l t) := ih h
      exact h1.2.2.2

theorem pathLinked_of_plug {c : List (Frame α)} {t : Node α} (hc : ChildrenLinked (plug c t))
    (hp : (plug c t).parentOf = none) (ht : t ≠ null) :
    t.parentOf = pathParent c ∧ PathLinked c := by
  induction c generalizing t with
  | nil => exact ⟨hp, trivial⟩
  | cons f c ih =>
    cases f with
    | left a v pr par r =>
      have h1 : ChildrenLinked (node a v pr par t r) := childrenLinked_of_plug hc
      obtain ⟨i1, i2⟩ := ih (t := node a v pr par t r) hc hp (by simp)
      exact ⟨h1.1 ht, i1, i2⟩
    | right a v pr par l =>
      have h1 : ChildrenLinked (node a v pr par l t) := childrenLinked_of_plug hc
      obtain ⟨i1, i2⟩ := ih (t := node a v pr par l t) hc hp (by simp)
      exact ⟨h1.2.1 ht, i1, i2⟩

/-- The climbing loop of `operator++`, started at a node below the path `c` with more fuel
than the path is long, stops where `climbResult` says. -/
theorem climbRight_plug (c : List (Frame α)) (a : Nat) (v : α) (pr : Int) (par : Option Nat)
    (l r : Node α) (fuel : Nat) (hn : (addrs (plug c (node a v pr par l r))).Nodup)
    (hl : PathLinked c) (hf : c.length < fuel) :
    iterator.climbRight (plug c (node a v pr par l r)) fuel a (pathParent c) =
      some (climbResult c a) := by
  induction c generalizing a v pr par l r fuel with
  | nil => cases fuel <;> rfl
  | cons f c ih =>
    obtain ⟨k, rfl⟩ : ∃ k, fuel = k + 1 := ⟨fuel - 1, by omega⟩
    have hk : c.length < k := by simpa using hf
    cases f with
    | left fa fv fpr fpar r1 =>
      have hn1 : (addrs (plug c (node fa fv fpr fpar (node a v pr par l r) r1))).Nodup := hn
      have hd : deref (plug (Frame.left fa fv fpr fpar r1 :: c) (node a v pr par l r)) fa =
          some (node fa fv fpr fpar (node a v pr par l r) r1) := deref_plug_root hn1
      have hne : r1.ptr ≠ some a := by
        intro e
        have h2 := nodup_of_plug hn1
        simp only [addrs] at h2
        have hd1 : List.Disjoint (addrs l ++ a :: addrs r) (fa :: addrs r1) :=
          (List.nodup_append.mp h2).2.2
        exact hd1 (by simp) (List.mem_cons_of_mem _ (ptr_mem_addrs e))
      show iterator.climbRight (plug (Frame.left fa fv fpr fpar r1 :: c) (node a v pr par l r))
        (k + 1) a (some fa) = some (a, some fa)
      rw [iterator.climbRight, hd]
      simp only [rightOf, if_neg hne]
    | right fa fv fpr fpar l1 =>
      have hn1 : (addrs (plug c (node fa fv fpr fpar l1 (node a v pr par l r)))).Nodup := hn
      have hd : deref (plug (Frame.right fa fv fpr fpar l1 :: c) (node a v pr par l r)) fa =
          some (node fa fv fpr fpar l1 (node a v pr par l r)) := deref_plug_root hn1
      have hpar : fpar = pathParent c := hl.1
      have hi := ih fa fv fpr fpar l1 (node a v pr par l r) k hn1 hl.2 hk
      rw [← hpar] at hi
      show iterator.climbRight (plug (Frame.right fa fv fpr fpar l1 :: c) (node a v pr par l r))
        (k + 1) a (some fa) = some (climbResult c fa)
      rw [iterator.climbRight, hd]
      simp only [rightOf, ptr, if_true, parentOf]
      exact hi

theorem climbResult_snd (c : List (Frame α)) (a : Nat) :
    (climbResult c a).2 = ((entriesAfter c).head?).map (fun e => e.1) := by
  induction c generalizing a with
  | nil => rfl
  | cons f c ih =>
    cases f with
    | left fa fv fpr fpar r1 => rfl
    | right fa fv fpr fpar l1 => exact ih fa

theorem GetLeft_ptr (t : Node α) :
    (GetLeft t).ptr = ((entries t).head?).map (fun e => e.1) := by
  induction t with
  | null => rfl
  | node a v pr par l r ihl _ =>
    cases l with
    | null => rfl
    | node la lv lp lpar ll lr =>
      have e : GetLeft (node a v pr par (node la lv lp lpar ll lr) r) =
          GetLeft (node la lv lp lpar ll lr) := rfl
      rw [e, ihl]
      have hne : entries (node la lv lp lpar ll lr) ≠ [] := by simp [entries]
      show _ = Option.map _
        (entries (node la lv lp lpar ll lr) ++ (a, v, pr) :: entries r).head?
      rw [List.head?_append_of_ne_nil _ hne]

end Paths

/-! ## Traversal -/

section Traversal

/-- At a node of a tree with distinct addresses and consistent parent links, `operator*`
returns the node's value and `operator++` moves to the next node in order, or sets the end
flag at the last node. -/
theorem inc_spec {mem : Node α} (hn : (addrs mem).Nodup) (hp : ParentConsistent mem)
    {E1 E2 : List (Nat × α × Int)} {a : Nat} {v : α} {p : Int}
    (h : entries mem = E1 ++ (a, v, p) :: E2) :
    iterator.get mem ⟨some a, false⟩ = .ok v ∧
      iterator.inc mem ⟨some a, false⟩ =
        .ok (match E2.head? with
          | none => ⟨some a, true⟩
          | some e => ⟨some e.1, false⟩) := by
  obtain ⟨c, par, l, r, e0, -, e2⟩ := exists_path mem h
  simp only at e0
  have hlen : c.length < count mem + 1 := by
    have h1 := path_length_le c
    have h2 : count mem = (entries mem).length := count_eq_length mem
    rw [h2]
    conv_rhs => rw [e0, entries_plug]
    simp only [List.length_append]
    omega
  subst e0
  have hd := deref_plug_root hn
  obtain ⟨hpar, hl⟩ := pathLinked_of_plug hp.1 hp.2 (t := node a v p par l r) (by simp)
  simp only [parentOf] at hpar
  refine ⟨by simp [iterator.get, hd], ?_⟩
  cases r with
  | node ra rv rp rpar rl rr =>
    have hg := GetLeft_ptr (node ra rv rp rpar rl rr)
    have hne : entries (node ra rv rp rpar rl rr) ≠ [] := by simp [entries]
    subst e2
    cases he : entries (node ra rv rp rpar rl rr) with
    | nil => exact absurd he hne
    | cons x xs =>
      rw [he] at hg
      simp [iterator.inc, hd, rightOf, hg]
  | null =>
    have hcl := climbRight_plug c a v p par l null _ hn hl hlen
    have hs := climbResult_snd c a
    rw [← hpar] at hcl
    simp only [entries, List.nil_append] at e2
    subst e2
    cases hr : climbResult c a with
    | mk x q =>
      rw [hr] at hcl hs
      cases q with
      | none =>
        have : entriesAfter c = [] := by
          cases hA : entriesAfter c with
          | nil => rfl
          | cons y ys => rw [hA] at hs; simp at hs
        rw [this]
        simp [iterator.inc, hd, rightOf, parentOf, hcl]
      | some q =>
        cases hA : entriesAfter c with
        | nil => rw [hA] at hs; simp at hs
        | cons y ys =>
          rw [hA] at hs
          simp only [List.head?_cons, Option.map_some', Option.some.injEq] at hs
          simp [iterator.inc, hd, rightOf, parentOf, hcl, hs]

/-- The client loop started at a node collects the values from that node on. -/
theorem collect_spec {s : Set α} (hn : (addrs s.root_).Nodup)
    (hp : ParentConsistent s.root_) (E2 : List (Nat × α × Int)) :
    ∀ (E1 : List (Nat × α × Int)) (a : Nat) (v : α) (p : Int) (fuel : Nat),
      entries s.root_ = E1 ++ (a, v, p) :: E2 → E2.length + 2 ≤ fuel →
      s.collect fuel ⟨some a, false⟩ = .ok (v :: E2.map (fun e => e.2.1)) := by
  induction E2 with
  | nil =>
    intro E1 a v p fuel h hf
    obtain ⟨k, rfl⟩ : ∃ k, fuel = k + 2 := ⟨fuel - 2, by simp at hf; omega⟩
    obtain ⟨g, i⟩ := inc_spec hn hp h
    simp [Set.collect, iterator_at_ne_end, g, i, iterator.ne, iterator.eq, Set.end_]
  | cons e E2 ih =>
    intro E1 a v p fuel h hf
    obtain ⟨k, rfl⟩ : ∃ k, fuel = k + 1 := ⟨fuel - 1, by simp at hf; omega⟩
    obtain ⟨g, i⟩ := inc_spec hn hp h
    obtain ⟨a1, v1, p1⟩ := e
    have h1 : entries s.root_ = (E1 ++ [(a, v, p)]) ++ (a1, v1, p1) :: E2 := by simp [h]
    have hrec := ih (E1 ++ [(a, v, p)]) a1 v1 p1 k h1 (by simp at hf ⊢; omega)
    simp [Set.collect, iterator_at_ne_end, g, i, hrec]

/-- A full traversal of a tree with distinct addresses and consistent parent links returns
the in-order values. -/
theorem traversal_spec {s : Set α} (hn : (addrs s.root_).Nodup)
    (hp : ParentConsistent s.root_) : s.traversal = .ok (values s.root_) := by
  unfold Set.traversal Set.begin
  rw [GetLeft_ptr, values_eq_map, count_eq_length]
  cases he : entries s.root_ with
  | nil =>
    have hr : s.root_ = null := entries_eq_nil.mp he
    simp [Set.collect, iterator.ne, iterator.eq, Set.end_, hr, GetRight, ptr]
  | cons e E2 =>
    obtain ⟨a, v, p⟩ := e
    have h := collect_spec hn hp E2 [] a v p (E2.length + 2) (by simp [he]) (le_refl _)
    simpa using h

theorem nodup_insert [LinearOrder α] (s : Set α) (value : α) (pr : Int) (addr : Nat)
    (hb : BST s.root_) (hn : (addrs s.root_).Nodup)
    (hf : (s.find value).ne s.end_ = false → addr ∉ addrs s.root_) :
    ∀ s1, s.insert value pr addr = .ok s1 → (addrs s1.root_).Nodup := by
  intro s1 e1
  by_cases h : value ∈ values s.root_
  · rw [insert_of_mem s pr addr hb h] at e1
    cases e1
    exact hn
  · have hfr : addr ∉ addrs s.root_ := hf (by
      show (s.findLoop s.root_ value).ne s.end_ = false
      rw [findLoop_of_not_mem s _ h, iterator_end_ne_end])
    obtain ⟨s2, L, R, e2, hL, hR, -⟩ := entries_insert_of_not_mem s pr addr h
    rw [e1] at e2
    cases e2
    rw [addrs_eq_map, hL] at hn hfr
    rw [addrs_eq_map, hR]
    have hperm : (List.map (fun e => e.1) (L ++ (addr, value, pr) :: R)).Perm
        (addr :: List.map (fun e => e.1) (L ++ R)) := by
      simp
    exact hperm.nodup_iff.mpr (List.nodup_cons.mpr ⟨hfr, hn⟩)

theorem nodup_erase [LinearOrder α] (s : Set α) (value : α) (hb : BST s.root_)
    (hn : (addrs s.root_).Nodup) : (addrs (s.erase value).root_).Nodup := by
  show (addrs (Erase s.root_ value none s.size_).1).Nodup
  rw [addrs_eq_map, entries_Erase _ _ _ _ hb]
  rw [addrs_eq_map] at hn
  exact hn.sublist ((List.filter_sublist _).map _)

theorem wellFormed_run_fresh [LinearOrder α] (s : Set α) (ops : List (Op α))
    (hw : s.WellFormed) (hn : (addrs s.root_).Nodup) (hf : Fresh s ops) :
    ∃ s1, s.run ops = .ok s1 ∧ s1.WellFormed ∧ (addrs s1.root_).Nodup := by
  induction ops generalizing s with
  | nil => exact ⟨s, rfl, hw, hn⟩
  | cons op ops ih =>
    cases op with
    | insert value pr addr =>
      obtain ⟨s1, e, h1, -⟩ := wellFormed_insert s value pr addr hw
      obtain ⟨f1, f2⟩ := hf
      rw [e] at f2
      obtain ⟨s2, e2, h2⟩ :=
        ih s1 h1 (nodup_insert s value pr addr hw.1 hn f1 s1 e) f2
      exact ⟨s2, by simp [Set.run, Set.step, e, e2], h2⟩
    | erase value =>
      obtain ⟨s2, e2, h2⟩ := ih (s.erase value) (wellFormed_erase s value hw)
        (nodup_erase s value hw.1 hn) hf
      exact ⟨s2, by simp [Set.run, Set.step, e2], h2⟩

end Traversal

/-! ## Copy, `insert` without exception, content -/

section Content

theorem values_Copy [LinearOrder α] (other : Set α) (draw : Nat → Int × Nat)
    (hb : BST other.root_) :
    ∃ b, other.copy draw = .ok b ∧ values b.root_ = values other.root_ ∧
      b.size_ = other.size_ := by
  obtain ⟨st, e, h, m⟩ := wellFormed_Copy draw other.root_ (⟨null, 0⟩, 0) wellFormed_init
  have hv : values st.1.root_ = values other.root_ :=
    sorted_ext ((bst_iff_sorted _).mp h.1) ((bst_iff_sorted _).mp hb)
      (fun x => by rw [m]; simp [values])
  exact ⟨⟨st.1.root_, other.size_⟩, by simp [Set.copy, e], hv, rfl⟩

/-- `find` and `split` compare along the same path: when `split` throws, `find` has found
a node. -/
theorem findLoop_of_split_error [LinearOrder α] (s : Set α) {t : Node α} {value : α}
    {e : String} (h : split t value = .error e) :
    ∃ a, s.findLoop t value = ⟨some a, false⟩ := by
  induction t generalizing e with
  | null => simp [split] at h
  | node a v pr par l r ihl ihr =>
    unfold split at h
    unfold Set.findLoop
    split_ifs at h ⊢ with c1 c2
    · cases hl : split l value with
      | error e1 => exact ihl hl
      | ok res => simp [hl] at h
    · cases hr : split r value with
      | error e1 => exact ihr hr
      | ok res => simp [hr] at h
    · exact ⟨a, rfl⟩

/-- `insert` returns on every set: `split` is reached only after `find` has failed. -/
theorem insert_ok [LinearOrder α] (s : Set α) (value : α) (pr : Int) (addr : Nat) :
    ((s.find value).ne s.end_ = true → s.insert value pr addr = .ok s) ∧
      ((s.find value).ne s.end_ = false → ∃ res, split s.root_ value = .ok res ∧
        s.insert value pr addr =
          .ok ⟨merge (merge res.1 (node addr value pr none null null)) res.2, s.size_ + 1⟩) := by
  constructor
  · intro h
    simp [Set.insert, h]
  · intro h
    cases hs : split s.root_ value with
    | error e =>
      obtain ⟨a, ea⟩ := findLoop_of_split_error s hs
      have : (s.find value).ne s.end_ = true := by
        show (s.findLoop s.root_ value).ne s.end_ = true
        rw [ea, iterator_at_ne_end]
      rw [this] at h
      exact absurd h (by simp)
    | ok res =>
      exact ⟨res, rfl, by simp [Set.insert, h, Insert, hs]⟩

theorem values_insert [LinearOrder α] (s : Set α) (value : α) (pr : Int) (addr : Nat)
    (hw : s.WellFormed) :
    ∃ s1, s.insert value pr addr = .ok s1 ∧ s1.WellFormed ∧
      values s1.root_ = if value ∈ values s.root_ then values s.root_
        else List.orderedInsert (· ≤ ·) value (values s.root_) := by
  obtain ⟨s1, e, h1, -⟩ := wellFormed_insert s value pr addr hw
  refine ⟨s1, e, h1, ?_⟩
  by_cases h : value ∈ values s.root_
  · rw [insert_of_mem s pr addr hw.1 h] at e
    cases e
    rw [if_pos h]
  · obtain ⟨s2, e2, hv, -⟩ := values_insert_of_not_mem s pr addr hw.1 h
    rw [e] at e2
    cases e2
    rw [if_neg h, hv]

/-- Two runs of the same requests from sets with the same content end with the same
content. -/
theorem values_run_congr [LinearOrder α] (ops1 ops2 : List (Op α)) (s1 s2 : Set α)
    (h1 : s1.WellFormed) (h2 : s2.WellFormed) (hv : values s1.root_ = values s2.root_)
    (hr : ops1.map Op.request = ops2.map Op.request) :
    ∃ r1 r2, s1.run ops1 = .ok r1 ∧ s2.run ops2 = .ok r2 ∧ r1.WellFormed ∧ r2.WellFormed ∧
      values r1.root_ = values r2.root_ := by
  induction ops1 generalizing ops2 s1 s2 with
  | nil =>
    cases ops2 with
    | nil => exact ⟨s1, s2, rfl, rfl, h1, h2, hv⟩
    | cons o os => simp at hr
  | cons o1 os1 ih =>
    cases ops2 with
    | nil => simp at hr
    | cons o2 os2 =>
      simp only [List.map_cons, List.cons.injEq] at hr
      obtain ⟨hr1, hr2⟩ := hr
      cases o1 with
      | insert v1 p1 a1 =>
        cases o2 with
        | erase v2 => simp [Op.request] at hr1
        | insert v2 p2 a2 =>
          simp only [Op.request, Prod.mk.injEq, true_and] at hr1
          subst hr1
          obtain ⟨t1, e1, w1, x1⟩ := values_insert s1 v1 p1 a1 h1
          obtain ⟨t2, e2, w2, x2⟩ := values_insert s2 v1 p2 a2 h2
          obtain ⟨r1, r2, g1, g2, g⟩ := ih os2 t1 t2 w1 w2 (by rw [x1, x2, hv]) hr2
          exact ⟨r1, r2, by simp [Set.run, Set.step, e1, g1],
            by simp [Set.run, Set.step, e2, g2], g⟩
      | erase v1 =>
        cases o2 with
        | insert v2 p2 a2 => simp [Op.request] at hr1
        | erase v2 =>
          simp only [Op.request, Prod.mk.injEq, true_and] at hr1
          subst hr1
          have x1 : values (s1.erase v1).root_ = (values s1.root_).erase v1 :=
            values_Erase _ _ _ _ h1.1
          have x2 : values (s2.erase v1).root_ = (values s2.root_).erase v1 :=
            values_Erase _ _ _ _ h2.1
          obtain ⟨r1, r2, g1, g2, g⟩ := ih os2 (s1.erase v1) (s2.erase v1)
            (wellFormed_erase s1 v1 h1) (wellFormed_erase s2 v1 h2) (by rw [x1, x2, hv]) hr2
          exact ⟨r1, r2, by simp [Set.run, Set.step, g1], by simp [Set.run, Set.step, g2], g⟩

end Content

/-! ## `split` and `merge` on max-heaps -/

section MaxHeapFacts

theorem maxHeap_setParent (p : Option Nat) (t : Node α) :
    MaxHeap (setParent p t) ↔ MaxHeap t := by
  cases t <;> simp [setParent, MaxHeap]

theorem maxHeap_UpdateParent (t : Node α) : MaxHeap (UpdateParent t) ↔ MaxHeap t := by
  cases t <;> simp [UpdateParent, MaxHeap, maxHeap_setParent]

/-- In a max-heap the root holds a maximal priority. -/
theorem maxHeap_le_root {t : Node α} (h : MaxHeap t) {p : Int} (hp : p ∈ t.priorityOf) :
    ∀ q ∈ priorities t, q ≤ p := by
  induction t generalizing p with
  | null => simp [priorities]
  | node a v pr par l r ihl ihr =>
    simp only [priorityOf, Option.mem_def, Option.some.injEq] at hp
    subst hp
    obtain ⟨h1, h2, h3, h4⟩ := h
    simp only [priorities, List.mem_append, List.mem_cons]
    rintro q (hq | rfl | hq)
    · rcases priorityOf_cases l with e | ⟨lp, e⟩
      · subst e
        simp [priorities] at hq
      · exact le_trans (ihl h3 (by simp [e]) q hq) (h1 lp (by simp [e]))
    · exact le_refl _
    · rcases priorityOf_cases r with e | ⟨rp, e⟩
      · subst e
        simp [priorities] at hq
      · exact le_trans (ihr h4 (by simp [e]) q hq) (h2 rp (by simp [e]))

theorem merge_priorityOf (l r : Node α) :
    (merge l r).priorityOf = l.priorityOf ∨ (merge l r).priorityOf = r.priorityOf := by
  rcases priorityOf_cases l with e | ⟨lp, el⟩
  · subst e
    exact Or.inr (by rw [merge])
  · rcases priorityOf_cases r with e | ⟨rp, er⟩
    · subst e
      exact Or.inl (by rw [merge_null_right])
    · by_cases c : lp > rp
      · exact Or.inl (by rw [((merge_top el er).1 c).2, el])
      · exact Or.inr (by rw [((merge_top el er).2 c).2, er])

theorem maxHeap_merge {l r : Node α} (hl : MaxHeap l) (hr : MaxHeap r) :
    MaxHeap (merge l r) := by
  induction l, r using merge.induct with
  | case1 rhs => simpa [merge] using hr
  | case2 la lv lp lpar ll lr => simpa [merge] using hl
  | case3 la lv lp lpar ll lr ra rv rp rpar rl rr h ih =>
    rw [merge, if_pos h, maxHeap_UpdateParent]
    obtain ⟨h1, h2, h3, h4⟩ := hl
    refine ⟨h1, ?_, h3, ih h4 hr⟩
    intro q hq
    rcases merge_priorityOf lr (node ra rv rp rpar rl rr) with e | e
    · rw [e] at hq
      exact h2 q hq
    · rw [e] at hq
      simp only [priorityOf, Option.mem_def, Option.some.injEq] at hq
      subst hq
      exact le_of_lt h
  | case4 la lv lp lpar ll lr ra rv rp rpar rl rr h ih =>
    rw [merge, if_neg h, maxHeap_UpdateParent]
    obtain ⟨h1, h2, h3, h4⟩ := hr
    refine ⟨?_, h2, ih hl h3, h4⟩
    intro q hq
    rcases merge_priorityOf (node la lv lp lpar ll lr) rl with e | e
    · rw [e] at hq
      simp only [priorityOf, Option.mem_def, Option.some.injEq] at hq
      subst hq
      exact not_lt.mp h
    · rw [e] at hq
      exact h1 q hq

theorem maxHeap_split [LinearOrder α] {t : Node α} {value : α} {res : Node α × Node α}
    (hh : MaxHeap t) (h : split t value = .ok res) : MaxHeap res.1 ∧ MaxHeap res.2 := by
  induction t generalizing res with
  | null => simp [split] at h; subst h; exact ⟨trivial, trivial⟩
  | node a v pr par l r ihl ihr =>
    have hroot := maxHeap_le_root hh (p := pr) (by simp [priorityOf])
    obtain ⟨h1, h2, h3, h4⟩ := hh
    unfold split at h
    split_ifs at h with c1 c2
    · cases hl : split l value with
      | error e => simp [hl] at h
      | ok rl =>
        simp only [hl, Except.ok.injEq] at h
        subst h
        obtain ⟨i1, i2⟩ := ihl h3 hl
        show MaxHeap (UpdateParent rl.1) ∧ MaxHeap (UpdateParent (node a v pr par rl.2 r))
        refine ⟨(maxHeap_UpdateParent _).mpr i1, (maxHeap_UpdateParent _).mpr ?_⟩
        refine ⟨fun q hq => hroot q ?_, h2, i2, h4⟩
        have hq1 : q ∈ priorities rl.2 := priorityOf_mem hq
        simp only [priorities, List.mem_append, List.mem_cons]
        rw [← priorities_split hl]
        exact Or.inl (List.mem_append_right _ hq1)
    · cases hr : split r value with
      | error e => simp [hr] at h
      | ok rr =>
        simp only [hr, Except.ok.injEq] at h
        subst h
        obtain ⟨i1, i2⟩ := ihr h4 hr
        show MaxHeap (UpdateParent (node a v pr par l rr.1)) ∧ MaxHeap (UpdateParent rr.2)
        refine ⟨(maxHeap_UpdateParent _).mpr ?_, (maxHeap_UpdateParent _).mpr i2⟩
        refine ⟨h1, fun q hq => hroot q ?_, h3, i1⟩
        have hq1 : q ∈ priorities rr.1 := priorityOf_mem hq
        simp only [priorities, List.mem_append, List.mem_cons]
        rw [← priorities_split hr]
        exact Or.inr (Or.inr (List.mem_append_left _ hq1))

/-- On a tree with the BST property `split` throws at a stored key. -/
theorem split_error_of_mem [LinearOrder α] {t : Node α} {value : α} (hb : BST t)
    (h : value ∈ values t) : split t value = .error "equal element" := by
  induction t with
  | null => simp [values] at h
  | node a v pr par l r ihl ihr =>
    obtain ⟨b1, b2, b3, b4⟩ := hb
    simp only [values, List.mem_append, List.mem_cons] at h
    unfold split
    split_ifs with c1 c2
    · rcases h with h | h | h
      · rw [ihl b3 h]
      · exact absurd c1 (by rw [h]; exact lt_irrefl _)
      · exact absurd (lt_trans c1 (b2 _ h)) (lt_irrefl _)
    · rcases h with h | h | h
      · exact absurd (lt_trans c2 (b1 _ h)) (lt_irrefl _)
      · exact absurd c2 (by rw [h]; exact lt_irrefl _)
      · rw [ihr b4 h]
    · rfl

end MaxHeapFacts

/-! ## Retreating -/

section Retreat

/-- The climbing loop of `operator--`, started at a node below the path `c` with more fuel
than the path is long, stops where `climbResultLeft` says. -/
theorem climbLeft_plug (c : List (Frame α)) (a : Nat) (v : α) (pr : Int) (par : Option Nat)
    (l r : Node α) (fuel : Nat) (hn : (addrs (plug c (node a v pr par l r))).Nodup)
    (hl : PathLinked c) (hf : c.length < fuel) :
    iterator.climbLeft (plug c (node a v pr par l r)) fuel a (pathParent c) =
      some (climbResultLeft c a) := by
  induction c generalizing a v pr par l r fuel with
  | nil => cases fuel <;> rfl
  | cons f c ih =>
    obtain ⟨k, rfl⟩ : ∃ k, fuel = k + 1 := ⟨fuel - 1, by omega⟩
    have hk : c.length < k := by simpa using hf
    cases f with
    | right fa fv fpr fpar l1 =>
      have hn1 : (addrs (plug c (node fa fv fpr fpar l1 (node a v pr par l r)))).Nodup := hn
      have hd : deref (plug (Frame.right fa fv fpr fpar l1 :: c) (node a v pr par l r)) fa =
          some (node fa fv fpr fpar l1 (node a v pr par l r)) := deref_plug_root hn1
      have hne : l1.ptr ≠ some a := by
        intro e
        have h2 := nodup_of_plug hn1
        simp only [addrs] at h2
        have hd1 : List.Disjoint (addrs l1) (fa :: (addrs l ++ a :: addrs r)) :=
          (List.nodup_append.mp h2).2.2
        exact hd1 (ptr_mem_addrs e) (by simp)
      show iterator.climbLeft (plug (Frame.right fa fv fpr fpar l1 :: c) (node a v pr par l r))
        (k + 1) a (some fa) = some (a, some fa)
      rw [iterator.climbLeft, hd]
      simp only [leftOf, if_neg hne]
    | left fa fv fpr fpar r1 =>
      have hn1 : (addrs (plug c (node fa fv fpr fpar (node a v pr par l r) r1))).Nodup := hn
      have hd : deref (plug (Frame.left fa fv fpr fpar r1 :: c) (node a v pr par l r)) fa =
          some (node fa fv fpr fpar (node a v pr par l r) r1) := deref_plug_root hn1
      have hpar : fpar = pathParent c := hl.1
      have hi := ih fa fv fpr fpar (node a v pr par l r) r1 k hn1 hl.2 hk
      rw [← hpar] at hi
      show iterator.climbLeft (plug (Frame.left fa fv fpr fpar r1 :: c) (node a v pr par l r))
        (k + 1) a (some fa) = some (climbResultLeft c fa)
      rw [iterator.climbLeft, hd]
      simp only [leftOf, ptr, if_true, parentOf]
      exact hi

theorem climbResultLeft_snd (c : List (Frame α)) (a : Nat) :
    (climbResultLeft c a).2 = ((entriesBefore c).getLast?).map (fun e => e.1) := by
  induction c generalizing a with
  | nil => rfl
  | cons f c ih =>
    cases f with
    | left fa fv fpr fpar r1 => exact ih fa
    | right fa fv fpr fpar l1 =>
      simp only [climbResultLeft, entriesBefore]
      rw [← List.append_assoc, List.getLast?_concat]
      rfl

theorem GetRight_ptr (t : Node α) :
    (GetRight t).ptr = ((entries t).getLast?).map (fun e => e.1) := by
  induction t with
  | null => rfl
  | node a v pr par l r _ ihr =>
    cases r with
    | null =>
      have e : GetRight (node a v pr par l null) = node a v pr par l null := by
        cases l <;> rfl
      rw [e]
      show _ = Option.map _ (entries l ++ [(a, v, pr)]).getLast?
      rw [List.getLast?_concat]
      rfl
    | node ra rv rp rpar rl rr =>
      have e : GetRight (node a v pr par l (node ra rv rp rpar rl rr)) =
          GetRight (node ra rv rp rpar rl rr) := by
        cases l <;> rfl
      rw [e, ihr]
      have hne : entries (node ra rv rp rpar rl rr) ≠ [] := by simp [entries]
      have hsplit : entries (node a v pr par l (node ra rv rp rpar rl rr)) =
          (entries l ++ [(a, v, pr)]) ++ entries (node ra rv rp rpar rl rr) := by
        simp [entries]
      rw [hsplit, List.getLast?_append_of_ne_nil _ hne]

/-- At a node of a tree with distinct addresses and consistent parent links, `operator--`
moves to the previous node in order; at the first node it returns a null pointer. -/
theorem dec_spec {mem : Node α} (hn : (addrs mem).Nodup) (hp : ParentConsistent mem)
    {E1 E2 : List (Nat × α × Int)} {a : Nat} {v : α} {p : Int}
    (h : entries mem = E1 ++ (a, v, p) :: E2) :
    iterator.dec mem ⟨some a, false⟩ = .ok ⟨(E1.getLast?).map (fun e => e.1), false⟩ := by
  obtain ⟨c, par, l, r, e0, e1, -⟩ := exists_path mem h
  simp only at e0
  have hlen : c.length < count mem + 1 := by
    have h1 := path_length_le c
    have h2 : count mem = (entries mem).length := count_eq_length mem
    rw [h2]
    conv_rhs => rw [e0, entries_plug]
    simp only [List.length_append]
    omega
  subst e0
  have hd := deref_plug_root hn
  obtain ⟨hpar, hl⟩ := pathLinked_of_plug hp.1 hp.2 (t := node a v p par l r) (by simp)
  simp only [parentOf] at hpar
  subst e1
  cases l with
  | node la lv lp lpar ll lr =>
    have hg := GetRight_ptr (node la lv lp lpar ll lr)
    have hne : entries (node la lv lp lpar ll lr) ≠ [] := by simp [entries]
    rw [List.getLast?_append_of_ne_nil _ hne, ← hg]
    simp [iterator.dec, hd, leftOf]
  | null =>
    have hcl := climbLeft_plug c a v p par null r _ hn hl hlen
    have hs := climbResultLeft_snd c a
    rw [← hpar] at hcl
    simp only [entries, List.append_nil]
    rw [← hs]
    cases hr : climbResultLeft c a with
    | mk x q =>
      rw [hr] at hcl
      simp [iterator.dec, hd, leftOf, parentOf, hcl]

end Retreat

/-! ## Iterators at the ends -/

section Ends

theorem exists_entry_of_mem_addrs {t : Node α} {a : Nat} (h : a ∈ addrs t) :
    ∃ E1 v p E2, entries t = E1 ++ (a, v, p) :: E2 := by
  rw [addrs_eq_map] at h
  obtain ⟨e, he, rfl⟩ := List.mem_map.mp h
  obtain ⟨E1, E2, h1⟩ := List.append_of_mem he
  exact ⟨E1, e.2.1, e.2.2, E2, h1⟩

theorem exists_last_entry {t : Node α} (h : t ≠ null) :
    ∃ E a v p, entries t = E ++ [(a, v, p)] := by
  rcases List.eq_nil_or_concat (entries t) with e | ⟨E, b, e⟩
  · exact absurd (entries_eq_nil.mp e) h
  · exact ⟨E, b.1, b.2.1, b.2.2, by rw [e, List.concat_eq_append]⟩

theorem end_eq_of_last {s : Set α} {E : List (Nat × α × Int)} {a : Nat} {v : α} {p : Int}
    (h : entries s.root_ = E ++ [(a, v, p)]) : s.end_ = ⟨some a, true⟩ := by
  unfold Set.end_
  rw [GetRight_ptr, h, List.getLast?_concat]
  rfl

theorem begin_eq_of_first {s : Set α} {E : List (Nat × α × Int)} {a : Nat} {v : α} {p : Int}
    (h : entries s.root_ = (a, v, p) :: E) : s.begin = ⟨some a, false⟩ := by
  unfold Set.begin
  rw [GetLeft_ptr, h]
  rfl

theorem get_end_flag (mem : Node α) (a : Nat) (b : Bool) :
    iterator.get mem ⟨some a, b⟩ = iterator.get mem ⟨some a, false⟩ := rfl

theorem iterator_eq_self (a : Nat) (b : Bool) :
    (iterator.mk (some a) b).eq ⟨some a, b⟩ = true := by
  simp [iterator.eq]

/-- `--(++it) == it` at every node. -/
theorem dec_inc {mem : Node α} (hn : (addrs mem).Nodup) (hp : ParentConsistent mem)
    {E1 E2 : List (Nat × α × Int)} {a : Nat} {v : α} {p : Int}
    (h : entries mem = E1 ++ (a, v, p) :: E2) :
    ∃ it1, iterator.inc mem ⟨some a, false⟩ = .ok it1 ∧
      iterator.dec mem it1 = .ok ⟨some a, false⟩ := by
  obtain ⟨-, hi⟩ := inc_spec hn hp h
  cases E2 with
  | nil => exact ⟨_, hi, by simp [iterator.dec]⟩
  | cons e E3 =>
    obtain ⟨a1, v1, p1⟩ := e
    refine ⟨_, hi, ?_⟩
    have h1 : entries mem = (E1 ++ [(a, v, p)]) ++ (a1, v1, p1) :: E3 := by simp [h]
    have hd := dec_spec hn hp h1
    rw [List.getLast?_concat] at hd
    exact hd

/-- `++(--it) == it` at every node but the first. -/
theorem inc_dec {mem : Node α} (hn : (addrs mem).Nodup) (hp : ParentConsistent mem)
    {E1 E2 : List (Nat × α × Int)} {a : Nat} {v : α} {p : Int}
    (h : entries mem = E1 ++ (a, v, p) :: E2) (hne : E1 ≠ []) :
    ∃ it1, iterator.dec mem ⟨some a, false⟩ = .ok it1 ∧
      iterator.inc mem it1 = .ok ⟨some a, false⟩ := by
  have hd := dec_spec hn hp h
  rcases List.eq_nil_or_concat E1 with e | ⟨E0, b, e⟩
  · exact absurd e hne
  · rw [List.concat_eq_append] at e
    subst e
    obtain ⟨b1, b2, b3⟩ := b
    rw [List.getLast?_concat] at hd
    refine ⟨_, hd, ?_⟩
    have h1 : entries mem = E0 ++ (b1, b2, b3) :: ((a, v, p) :: E2) := by simp [h]
    exact (inc_spec hn hp h1).2

end Ends

/-! ## Results -/

section Results

/-- C1 (BST invariant): every sequence of `insert` / `erase` calls on the empty set, with any
priorities (ties included) and addresses, runs without exception and leaves a tree in which,
at every node, the left subtree holds smaller and the right subtree greater values; the
in-order value sequence is strictly increasing and has no duplicates. -/
theorem C1_bst_invariant [LinearOrder α] (ops : List (Op α)) :
    ∃ s, Set.run Set.init ops = .ok s ∧ BST s.root_ ∧
      (values s.root_).Sorted (· < ·) ∧ (values s.root_).Nodup := by
  obtain ⟨s, e, h⟩ := wellFormed_run Set.init ops wellFormed_init
  have hs := (bst_iff_sorted _).mp h.1
  exact ⟨s, e, h.1, hs, hs.imp ne_of_lt⟩

/-- C2 (insert): on a set with the BST property and for every priority and address, `insert v`
of an absent `v` returns a set whose in-order values are the old ones with `v` put at its
sorted position and in which `find v` is not `end`; `insert v` of a stored `v` returns the set
unchanged (tree and size); so a second `insert v` changes nothing. -/
theorem C2_insert_spec [LinearOrder α] (s : Set α) (v : α) (pr : Int) (addr : Nat)
    (hb : BST s.root_) :
    (v ∉ values s.root_ → ∃ s1, s.insert v pr addr = .ok s1 ∧
        values s1.root_ = List.orderedInsert (· ≤ ·) v (values s.root_) ∧
        (s1.find v).ne s1.end_ = true) ∧
      (v ∈ values s.root_ → s.insert v pr addr = .ok s) ∧
      (∃ s1, s.insert v pr addr = .ok s1 ∧ ∀ pr2 addr2, s1.insert v pr2 addr2 = .ok s1) := by
  have key : ∀ s1, s.insert v pr addr = .ok s1 → BST s1.root_ → v ∈ values s1.root_ →
      (s1.find v).ne s1.end_ = true ∧ ∀ pr2 addr2, s1.insert v pr2 addr2 = .ok s1 := by
    intro s1 _ hb1 hm
    obtain ⟨a, p, e, -⟩ := findLoop_of_mem s1 hb1 hm
    refine ⟨?_, fun pr2 addr2 => insert_of_mem s1 pr2 addr2 hb1 hm⟩
    show (s1.findLoop s1.root_ v).ne s1.end_ = true
    rw [e, iterator_at_ne_end]
  refine ⟨fun h => ?_, fun h => insert_of_mem s pr addr hb h, ?_⟩
  · obtain ⟨s1, e, hv, -⟩ := values_insert_of_not_mem s pr addr hb h
    obtain ⟨s2, e2, hb2⟩ := bst_insert s v pr addr hb
    rw [e] at e2
    cases e2
    exact ⟨s1, e, hv, (key s1 e hb2 (by rw [hv, List.mem_orderedInsert]; exact Or.inl rfl)).1⟩
  · by_cases h : v ∈ values s.root_
    · have e := insert_of_mem s pr addr hb h
      exact ⟨s, e, (key s e hb h).2⟩
    · obtain ⟨s1, e, hv, -⟩ := values_insert_of_not_mem s pr addr hb h
      obtain ⟨s2, e2, hb2⟩ := bst_insert s v pr addr hb
      rw [e] at e2
      cases e2
      exact ⟨s1, e, (key s1 e hb2 (by rw [hv, List.mem_orderedInsert]; exact Or.inl rfl)).2⟩

/-- C2 at the set {2, 4, 6, 8} and the absent value 5. -/
theorem C2_insert_spec_witness :
    BST sample.root_ ∧ ∃ s1, sample.insert 5 3 9 = .ok s1 ∧ values s1.root_ = [2, 4, 5, 6, 8] :=
  ⟨by decide, by
    obtain ⟨s1, e, hv, -⟩ := (C2_insert_spec sample 5 3 9 (by decide)).1 (by decide)
    exact ⟨s1, e, by rw [hv]; decide⟩⟩

/-- C3 (erase): on a set with the BST property, after `erase v` the value `v` is not found
(`find v == end()`), every other value stored before is still found, the in-order values are
the old ones without `v`; when `v` is absent the set (tree and size) is unchanged, and a
second `erase v` changes nothing. -/
theorem C3_erase_spec [LinearOrder α] (s : Set α) (v : α) (hb : BST s.root_) :
    ((s.erase v).find v).eq (s.erase v).end_ = true ∧
      (∀ w, w ≠ v → w ∈ values s.root_ →
        ((s.erase v).find w).ne (s.erase v).end_ = true) ∧
      values (s.erase v).root_ = (values s.root_).erase v ∧
      (v ∉ values s.root_ → s.erase v = s) ∧
      (s.erase v).erase v = s.erase v := by
  have hv : values (s.erase v).root_ = (values s.root_).erase v :=
    values_Erase s.root_ v none s.size_ hb
  have hn : (values s.root_).Nodup := ((bst_iff_sorted _).mp hb).imp ne_of_lt
  have hb1 : BST (s.erase v).root_ := bst_Erase s.root_ v none s.size_ hb
  have hnot : v ∉ values (s.erase v).root_ := by
    rw [hv, hn.mem_erase_iff]
    exact fun h => h.1 rfl
  have habs : ∀ s0 : Set α, v ∉ values s0.root_ → s0.erase v = s0 := by
    intro s0 h
    show (⟨(Erase s0.root_ v none s0.size_).1, (Erase s0.root_ v none s0.size_).2⟩ : Set α) = s0
    rw [Erase_of_not_mem _ _ _ h]
  refine ⟨?_, ?_, hv, habs s, habs _ hnot⟩
  · show ((s.erase v).findLoop (s.erase v).root_ v).eq (s.erase v).end_ = true
    rw [findLoop_of_not_mem _ _ hnot]
    simp [iterator.eq, Set.end_]
  · intro w hw hm
    have hm1 : w ∈ values (s.erase v).root_ := by
      rw [hv, hn.mem_erase_iff]
      exact ⟨hw, hm⟩
    obtain ⟨a, p, e, -⟩ := findLoop_of_mem (s.erase v) hb1 hm1
    show ((s.erase v).findLoop (s.erase v).root_ w).ne (s.erase v).end_ = true
    rw [e, iterator_at_ne_end]

/-- C3 at the set {2, 4, 6, 8} and the stored value 4. -/
theorem C3_erase_spec_witness :
    BST sample.root_ ∧ values (sample.erase 4).root_ = [2, 6, 8] :=
  ⟨by decide, by
    rw [(C3_erase_spec sample 4 (by decide)).2.2.1]
    decide⟩

/-- C6 (find): on a set with the BST property, `find v` differs from `end()` exactly when
`v` is stored; in that case the iterator is not flagged end and holds the address of a node
whose value is `v`; otherwise `find v` is `end()`. -/
theorem C6_find_spec [LinearOrder α] (s : Set α) (v : α) (hb : BST s.root_) :
    ((s.find v).ne s.end_ = true ↔ v ∈ values s.root_) ∧
      (v ∈ values s.root_ →
        ∃ a p, s.find v = ⟨some a, false⟩ ∧ (a, v, p) ∈ entries s.root_) ∧
      (v ∉ values s.root_ → s.find v = s.end_ ∧ (s.find v).eq s.end_ = true) := by
  have h1 : v ∈ values s.root_ →
      ∃ a p, s.find v = ⟨some a, false⟩ ∧ (a, v, p) ∈ entries s.root_ :=
    fun h => findLoop_of_mem s hb h
  have h2 : v ∉ values s.root_ → s.find v = s.end_ := fun h => findLoop_of_not_mem s _ h
  refine ⟨⟨fun h => ?_, fun h => ?_⟩, h1, fun h => ⟨h2 h, ?_⟩⟩
  · by_contra hm
    rw [h2 hm, iterator_end_ne_end] at h
    exact Bool.false_ne_true h
  · obtain ⟨a, p, e, -⟩ := h1 h
    rw [e, iterator_at_ne_end]
  · rw [h2 h]
    simp [iterator.eq, Set.end_]

/-- C6 at the set {2, 4, 6, 8}: 6 is found at the node with address 3, 5 is not found. -/
theorem C6_find_spec_witness :
    BST sample.root_ ∧ ((sample.find 6).ne sample.end_ = true ↔ 6 ∈ values sample.root_) ∧
      sample.find 5 = sample.end_ :=
  ⟨by decide, (C6_find_spec sample 6 (by decide)).1,
    ((C6_find_spec sample 5 (by decide)).2.2 (by decide)).1⟩

/-- C7 (size consistency): every sequence of public calls (constructors, `insert`, `erase`,
copy) starting from the empty set runs without exception and ends in a set whose `size()` is
the number of nodes reachable from the root and whose `empty()` is true exactly when the tree
has no node. -/
theorem C7_size_consistency [LinearOrder α] (cs : List (Call α)) :
    ∃ s, Set.calls Set.init cs = .ok s ∧ s.size = count s.root_ ∧
      (s.empty = true ↔ s.root_ = null) := by
  obtain ⟨s, e, h⟩ := wellFormed_calls Set.init cs wellFormed_init
  refine ⟨s, e, h.2.2.2, ?_⟩
  have hs : s.size_ = count s.root_ := h.2.2.2
  simp only [Set.empty, beq_iff_eq, hs]
  rw [← entries_eq_nil, ← List.length_eq_zero, ← count_eq_length]
  exact Int.natCast_eq_zero

/-- C8 (max-heap invariant): every sequence of `insert` / `erase` calls on the empty set,
with any priorities (ties included), runs without exception and leaves a tree in which the
priority of every node is at least the priority of each of its children. -/
theorem C8_heap_invariant [LinearOrder α] (ops : List (Op α)) :
    ∃ s, Set.run Set.init ops = .ok s ∧ MaxHeap s.root_ := by
  obtain ⟨s, e, h⟩ := wellFormed_run Set.init ops wellFormed_init
  exact ⟨s, e, h.2.1.maxHeap⟩

/-- C9 (parent consistency): every sequence of `insert` / `erase` calls on the empty set,
with any priorities (equal ones included) and whatever addresses the nodes get, runs without
exception and leaves a tree in which every present child has its structural parent's address
in `parent` and the root's `parent` is absent. -/
theorem C9_parent_consistency [LinearOrder α] (ops : List (Op α)) :
    ∃ s, Set.run Set.init ops = .ok s ∧ ChildrenLinked s.root_ ∧ s.root_.parentOf = none := by
  obtain ⟨s, e, h⟩ := wellFormed_run Set.init ops wellFormed_init
  exact ⟨s, e, h.2.2.1⟩

/-- C10 (range / list construction): for every input sequence, with any priorities and
addresses, the constructor returns a set whose in-order values are the sorted list of the
distinct input values and whose `size()` is the number of distinct input values. -/
theorem C10_range_construction [LinearOrder α] (xs : List (α × Int × Nat)) :
    ∃ s, Set.ofRange xs = .ok s ∧
      values s.root_ = ((xs.map (fun e => e.1)).toFinset).sort (· ≤ ·) ∧
      s.size = ((xs.map (fun e => e.1)).toFinset).card := by
  obtain ⟨s, e, h, m⟩ := wellFormed_ofRange xs
  have hv : values s.root_ = ((xs.map (fun e => e.1)).toFinset).sort (· ≤ ·) :=
    sorted_ext ((bst_iff_sorted _).mp h.1) (Finset.sort_sorted_lt _)
      (fun x => by rw [m]; simp)
  refine ⟨s, e, hv, ?_⟩
  show s.size_ = _
  rw [h.2.2.2, count_eq_values_length, hv, Finset.length_sort]

/-- C5 (lower_bound): on a set with the BST property, `lower_bound v` is `end()` exactly when
every stored value is less than `v` (the empty set included); otherwise it is an iterator, not
flagged end, holding the address of the node with the least stored value not less than
`v`. -/
theorem C5_lower_bound_spec [LinearOrder α] (s : Set α) (v : α) (hb : BST s.root_) :
    ((s.lower_bound v).eq s.end_ = true ↔ ∀ x ∈ values s.root_, x < v) ∧
      ((∃ x ∈ values s.root_, v ≤ x) →
        ∃ a m p, s.lower_bound v = ⟨some a, false⟩ ∧ (a, m, p) ∈ entries s.root_ ∧
          v ≤ m ∧ ∀ x ∈ values s.root_, v ≤ x → m ≤ x) := by
  obtain ⟨h1, h2⟩ := lowerBoundLoop_spec s none v hb
  refine ⟨⟨fun he => ?_, fun h => ?_⟩, h1⟩
  · by_contra hx
    have hx1 : ∃ x ∈ values s.root_, v ≤ x := by
      by_contra hn
      exact hx fun x hm => not_le.mp fun hle => hn ⟨x, hm, hle⟩
    obtain ⟨a, m, p, e, -⟩ := h1 hx1
    have e1 : s.lower_bound v = ⟨some a, false⟩ := e
    rw [e1] at he
    simp [iterator.eq, Set.end_] at he
  · have e1 : s.lower_bound v = s.end_ := h2 h
    rw [e1]
    simp [iterator.eq, Set.end_]

/-- C5 on the set {2, 4, 6, 8}: `lower_bound 5` is at 6, `lower_bound 8` is at 8 and
`lower_bound 9` is `end()`. -/
theorem C5_lower_bound_spec_witness :
    BST sample.root_ ∧
      ((sample.lower_bound 9).eq sample.end_ = true ↔ ∀ x ∈ values sample.root_, x < 9) ∧
      (sample.lower_bound 5).get sample.root_ = .ok 6 ∧
      (sample.lower_bound 8).get sample.root_ = .ok 8 ∧
      (sample.lower_bound 9).eq sample.end_ = true :=
  ⟨by decide, (C5_lower_bound_spec sample 9 (by decide)).1, rfl, rfl, by decide⟩

/-- C4 (iteration order): for every sequence of `insert` / `erase` calls on the empty set,
with any priorities and with fresh addresses for the created nodes, the calls run without
exception and the loop from `begin()` with `++` until `end()` terminates and returns the
stored values in strictly increasing order, each once, as many as `size()`. -/
theorem C4_iteration_order [LinearOrder α] (ops : List (Op α)) (hf : Fresh Set.init ops) :
    ∃ s, Set.run Set.init ops = .ok s ∧ s.traversal = .ok (values s.root_) ∧
      (values s.root_).Sorted (· < ·) ∧ ((values s.root_).length : Int) = s.size := by
  obtain ⟨s, e, hw, hn⟩ :=
    wellFormed_run_fresh Set.init ops wellFormed_init (by simp [Set.init, addrs]) hf
  refine ⟨s, e, traversal_spec hn hw.2.2.1, (bst_iff_sorted _).mp hw.1, ?_⟩
  show _ = s.size_
  rw [hw.2.2.2, count_eq_values_length]

/-- C4 on the calls `insert 5, 3, 8, 1, 4`: the traversal is 1, 3, 4, 5, 8, and after
`erase 3` it is 1, 4, 5, 8. -/
theorem C4_iteration_order_witness :
    (Fresh Set.init walk5 ∧ ∃ s, Set.run Set.init walk5 = .ok s ∧
        s.traversal = .ok [1, 3, 4, 5, 8]) ∧
      (Fresh Set.init walk6 ∧ ∃ s, Set.run Set.init walk6 = .ok s ∧
        s.traversal = .ok [1, 4, 5, 8] ∧ s.size = 4) := by
  have f5 : Fresh Set.init walk5 := by
    simp [Fresh, walk5, Set.insert, Set.init, Set.find, Set.findLoop, Set.end_, GetRight,
      iterator.ne, iterator.eq, Insert, split, merge, UpdateParent, setParent, Node.ptr, addrs]
  have f6 : Fresh Set.init walk6 := by
    simp [Fresh, walk6, walk5, Set.insert, Set.init, Set.find, Set.findLoop, Set.end_,
      GetRight, iterator.ne, iterator.eq, Insert, split, merge, UpdateParent, setParent,
      Node.ptr, addrs]
  refine ⟨⟨f5, ?_⟩, f6, ?_⟩
  · obtain ⟨s, e, ht, -, -⟩ := C4_iteration_order walk5 f5
    refine ⟨s, e, ?_⟩
    rw [ht]
    simp [walk5, Set.run, Set.step, Set.insert, Set.init, Set.find, Set.findLoop, Set.end_,
      GetRight, iterator.ne, iterator.eq, Insert, split, merge, UpdateParent, setParent,
      Node.ptr] at e
    subst e
    simp [values]
  · obtain ⟨s, e, ht, -, hs⟩ := C4_iteration_order walk6 f6
    refine ⟨s, e, ?_⟩
    rw [ht, ← hs]
    simp [walk6, walk5, Set.run, Set.step, Set.insert, Set.init, Set.find, Set.findLoop,
      Set.end_, GetRight, iterator.ne, iterator.eq, Insert, split, merge, UpdateParent,
      setParent, Node.ptr, Set.erase, Erase] at e
    subst e
    simp [values]

/-- C11 (copy): for every source set `a` with the BST property and any priorities and
addresses drawn for the copy, the copy-constructed set `b`, and the set assigned from `a`,
has the in-order values of `a` and `b.size() == a.size()`; self-assignment changes
nothing. -/
theorem C11_copy_spec [LinearOrder α] (a : Set α) (draw : Nat → Int × Nat)
    (hb : BST a.root_) :
    (∃ b, a.copy draw = .ok b ∧ values b.root_ = values a.root_ ∧ b.size = a.size) ∧
      (∀ s : Set α, ∃ b, s.assign a false draw = .ok b ∧
        values b.root_ = values a.root_ ∧ b.size = a.size) ∧
      a.assign a true draw = .ok a :=
  ⟨values_Copy a draw hb, fun _ => values_Copy a draw hb, rfl⟩

/-- C11 on the set {2, 4, 6, 8}: the copy that draws rising priorities has the same values
and size but another shape. -/
theorem C11_copy_spec_witness :
    BST sample.root_ ∧ ∃ b, sample.copy rising = .ok b ∧ values b.root_ = [2, 4, 6, 8] ∧
      b.size = 4 ∧ b.root_ ≠ sample.root_ := by
  refine ⟨by decide, ?_⟩
  obtain ⟨b, e, hv, hs⟩ := (C11_copy_spec sample rising (by decide)).1
  refine ⟨b, e, by rw [hv]; decide, by rw [hs]; rfl, ?_⟩
  simp [Set.copy, Set.Copy, sample, rising, Set.insert, Set.find, Set.findLoop, Set.end_,
    GetRight, iterator.ne, iterator.eq, Insert, split, merge, UpdateParent, setParent,
    Node.ptr] at e
  subst e
  simp [sample]

/-- C12 (`insert` never throws): on every set, with the BST property or not, and for every
value, priority and address, `insert` returns; it reaches `split` only when `find` has
failed, and then `split` does not take its throwing branch. -/
theorem C12_insert_never_throws [LinearOrder α] (s : Set α) (v : α) (pr : Int)
    (addr : Nat) :
    (∃ s1, s.insert v pr addr = .ok s1) ∧
      ((s.find v).ne s.end_ = true → s.insert v pr addr = .ok s) ∧
      ((s.find v).ne s.end_ = false → ∃ res, split s.root_ v = .ok res) := by
  obtain ⟨h1, h2⟩ := insert_ok s v pr addr
  refine ⟨?_, h1, fun h => ?_⟩
  · cases h : (s.find v).ne s.end_ with
    | true => exact ⟨s, h1 h⟩
    | false =>
      obtain ⟨res, -, e⟩ := h2 h
      exact ⟨_, e⟩
  · obtain ⟨res, e, -⟩ := h2 h
    exact ⟨res, e⟩

/-- C16 (`split`): on a tree with the BST and max-heap properties, `split` at a key `k` that
is not stored returns `(L, R)` with all values of `L` less than `k`, all values of `R` at
least `k`, the values of `L` followed by those of `R` being the values of the tree, and both
halves with the BST and max-heap properties; at a stored key it throws
"equal element". -/
theorem C16_split_spec [LinearOrder α] (t : Node α) (k : α) (hb : BST t) (hh : MaxHeap t) :
    (k ∉ values t → ∃ res, split t k = .ok res ∧
        (∀ x ∈ values res.1, x < k) ∧ (∀ y ∈ values res.2, k ≤ y) ∧
        values res.1 ++ values res.2 = values t ∧
        BST res.1 ∧ MaxHeap res.1 ∧ BST res.2 ∧ MaxHeap res.2) ∧
      (k ∈ values t → split t k = .error "equal element") := by
  refine ⟨fun h => ?_, fun h => split_error_of_mem hb h⟩
  obtain ⟨res, e⟩ := split_ok t k h
  obtain ⟨b1, b2⟩ := split_bounds hb e
  obtain ⟨s1, s2⟩ := bst_split hb e
  obtain ⟨m1, m2⟩ := maxHeap_split hh e
  exact ⟨res, e, b1, fun y hy => le_of_lt (b2 y hy), values_split e, s1, m1, s2, m2⟩

/-- C16 on the treap {2, 4, 6, 8}: the key 6 makes `split` throw, the key 5 does not. -/
theorem C16_split_spec_witness :
    BST sample.root_ ∧ MaxHeap sample.root_ ∧
      split sample.root_ 6 = .error "equal element" ∧
      ∃ res, split sample.root_ 5 = .ok res ∧ values res.1 ++ values res.2 = [2, 4, 6, 8] := by
  refine ⟨by decide, by decide,
    (C16_split_spec sample.root_ 6 (by decide) (by decide)).2 (by decide), ?_⟩
  obtain ⟨res, e, -, -, hv, -⟩ :=
    (C16_split_spec sample.root_ 5 (by decide) (by decide)).1 (by decide)
  exact ⟨res, e, by rw [hv]; decide⟩

/-- C17 (`merge`): for trees `L` and `R` with the BST and max-heap properties and every value
of `L` less than every value of `R`, whatever the priorities (equal root priorities
included), `merge L R` has the BST and max-heap properties and its in-order values are those
of `L` followed by those of `R`; `merge` with an absent side returns the other side. -/
theorem C17_merge_spec [LinearOrder α] (L R : Node α) (hbl : BST L) (hhl : MaxHeap L)
    (hbr : BST R) (hhr : MaxHeap R) (hlt : ∀ x ∈ values L, ∀ y ∈ values R, x < y) :
    BST (merge L R) ∧ MaxHeap (merge L R) ∧ values (merge L R) = values L ++ values R ∧
      merge L null = L ∧ merge null R = R :=
  ⟨bst_merge hbl hbr hlt, maxHeap_merge hhl hhr, values_merge L R, merge_null_right L,
    by rw [merge]⟩

/-- C17 on two single nodes with equal priorities. -/
theorem C17_merge_spec_witness :
    BST (merge (node 1 2 7 none null null) (node 2 6 7 none null null) : Node Nat) ∧
      MaxHeap (merge (node 1 2 7 none null null) (node 2 6 7 none null null) : Node Nat) ∧
      values (merge (node 1 2 7 none null null) (node 2 6 7 none null null) : Node Nat) =
        [2, 6] := by
  obtain ⟨h1, h2, h3, -⟩ := C17_merge_spec (node 1 2 7 none null null : Node Nat)
    (node 2 6 7 none null null) (by decide) (by decide) (by decide) (by decide) (by decide)
  exact ⟨h1, h2, h3⟩

/-- C19 (content does not depend on the priorities): two sequences of `insert` / `erase`
calls on the empty set that ask for the same values in the same order, with any two choices
of priorities and addresses, both run without exception and end with the same in-order
values and the same `size()`. -/
theorem C19_content_independent [LinearOrder α] (ops1 ops2 : List (Op α))
    (h : ops1.map Op.request = ops2.map Op.request) :
    ∃ s1 s2, Set.run Set.init ops1 = .ok s1 ∧ Set.run Set.init ops2 = .ok s2 ∧
      values s1.root_ = values s2.root_ ∧ s1.size = s2.size := by
  obtain ⟨r1, r2, e1, e2, w1, w2, hv⟩ :=
    values_run_congr ops1 ops2 Set.init Set.init wellFormed_init wellFormed_init rfl h
  refine ⟨r1, r2, e1, e2, hv, ?_⟩
  show r1.size_ = r2.size_
  rw [w1.2.2.2, w2.2.2.2, count_eq_values_length, count_eq_values_length, hv]

/-- C19 on the calls `insert 5, 3, 8, 1, 4` with two different choices of priorities. -/
theorem C19_content_independent_witness :
    walk5.map Op.request = walk5b.map Op.request ∧
      ∃ s1 s2, Set.run Set.init walk5 = .ok s1 ∧ Set.run Set.init walk5b = .ok s2 ∧
        values s1.root_ = values s2.root_ ∧ s1.size = s2.size :=
  ⟨by decide, C19_content_independent walk5 walk5b (by decide)⟩

/-- C20 (parent links under distinct priorities): for every sequence of `insert` / `erase`
calls on the empty set in which the drawn priorities are pairwise distinct, after each call
the root's `parent` is absent and every present child has its structural parent's address in
`parent`. -/
theorem C20_parent_links_distinct [LinearOrder α] (ops : List (Op α))
    (_hd : (drawn Set.init ops).Nodup) (n : Nat) :
    ∃ s, Set.run Set.init (ops.take n) = .ok s ∧ ChildrenLinked s.root_ ∧
      s.root_.parentOf = none := by
  obtain ⟨s, e, h⟩ := wellFormed_run Set.init (ops.take n) wellFormed_init
  exact ⟨s, e, h.2.2.1⟩

/-- C20 on three inserts with distinct priorities followed by an `erase`. -/
theorem C20_parent_links_distinct_witness :
    (drawn Set.init walk4).Nodup ∧
      ∃ s, Set.run Set.init (walk4.take 4) = .ok s ∧ ChildrenLinked s.root_ ∧
        s.root_.parentOf = none := by
  have hd : (drawn Set.init walk4).Nodup := by
    simp [drawn, walk4, Set.insert, Set.init, Set.find, Set.findLoop, Set.end_, GetRight,
      iterator.ne, iterator.eq, Insert, split, merge, UpdateParent, setParent, Node.ptr,
      Set.erase, Erase]
  exact ⟨hd, C20_parent_links_distinct walk4 hd 4⟩

/-- C15 (bidirectional symmetry): on a set whose tree has consistent parent links (and
distinct node addresses), for every iterator `it` at a live node `--(++it) == it`, also at
the maximum where `++it` is the end state; for every such `it` other than `begin()`
`++(--it) == it`; and `++(--end()) == end()` as the set is not empty. -/
theorem C15_bidirectional_symmetry (s : Set α) (hn : (addrs s.root_).Nodup)
    (hp : ParentConsistent s.root_) (a : Nat) (ha : a ∈ addrs s.root_) :
    (∃ it1 it2, iterator.inc s.root_ ⟨some a, false⟩ = .ok it1 ∧
        iterator.dec s.root_ it1 = .ok it2 ∧ it2.eq ⟨some a, false⟩ = true) ∧
      ((iterator.mk (some a) false).ne s.begin = true →
        ∃ it1 it2, iterator.dec s.root_ ⟨some a, false⟩ = .ok it1 ∧
          iterator.inc s.root_ it1 = .ok it2 ∧ it2.eq ⟨some a, false⟩ = true) ∧
      (∃ it1 it2, iterator.dec s.root_ s.end_ = .ok it1 ∧
        iterator.inc s.root_ it1 = .ok it2 ∧ it2.eq s.end_ = true) := by
  obtain ⟨E1, v, p, E2, h⟩ := exists_entry_of_mem_addrs ha
  refine ⟨?_, fun hb => ?_, ?_⟩
  · obtain ⟨it1, e1, e2⟩ := dec_inc hn hp h
    exact ⟨it1, _, e1, e2, iterator_eq_self a false⟩
  · have hne : E1 ≠ [] := by
      rintro rfl
      rw [begin_eq_of_first (by simpa using h)] at hb
      simp [iterator.ne, iterator.eq] at hb
    obtain ⟨it1, e1, e2⟩ := inc_dec hn hp h hne
    exact ⟨it1, _, e1, e2, iterator_eq_self a false⟩
  · have hnn : s.root_ ≠ null := by
      rintro e
      rw [e] at ha
      simp [addrs] at ha
    obtain ⟨E, z, vz, pz, hl⟩ := exists_last_entry hnn
    have he := end_eq_of_last hl
    have hl1 : entries s.root_ = E ++ (z, vz, pz) :: [] := hl
    refine ⟨⟨some z, false⟩, ⟨some z, true⟩, by rw [he]; simp [iterator.dec],
      (inc_spec hn hp hl1).2, by rw [he]; exact iterator_eq_self z true⟩

/-- C15 on the treap {2, 4, 6, 8} at the node of 6 (address 3). -/
theorem C15_bidirectional_symmetry_witness :
    (addrs sample.root_).Nodup ∧ ParentConsistent sample.root_ ∧ 3 ∈ addrs sample.root_ ∧
      (∃ it1 it2, iterator.inc sample.root_ ⟨some 3, false⟩ = .ok it1 ∧
        iterator.dec sample.root_ it1 = .ok it2 ∧ it2.eq ⟨some 3, false⟩ = true) :=
  ⟨by decide, by decide, by decide,
    (C15_bidirectional_symmetry sample (by decide) (by decide) 3 (by decide)).1⟩

/-- C13, counterexample: `end()` of the set {2, 4, 6, 8} is flagged end and `operator*` on it
returns 8 instead of failing. -/
theorem C13_counterexample :
    sample.end_.end_ = true ∧ sample.end_.get sample.root_ = .ok 8 ∧
      ¬ ∃ e, sample.end_.get sample.root_ = .error e :=
  ⟨rfl, rfl, by rintro ⟨e, h⟩; cases h⟩

/-- C13, amended: dereferencing is not checked. On a non-empty set with the BST property
(distinct node addresses, consistent parent links) `end()` holds the address of the
right-most node, `operator*` on it returns the greatest stored value, a stored value that no
stored value exceeds and the last of the in-order sequence, and `++` at the right-most node
gives that same end-state iterator. -/
theorem C13_deref_end_unchecked [LinearOrder α] (s : Set α) (hb : BST s.root_)
    (hn : (addrs s.root_).Nodup) (hp : ParentConsistent s.root_) (hne : s.root_ ≠ null) :
    ∃ a m, s.end_ = ⟨some a, true⟩ ∧ s.end_.get s.root_ = .ok m ∧
      m ∈ values s.root_ ∧ (∀ x ∈ values s.root_, x ≤ m) ∧
      (values s.root_).getLast? = some m ∧
      iterator.inc s.root_ ⟨some a, false⟩ = .ok s.end_ := by
  obtain ⟨E, a, v, p, hl⟩ := exists_last_entry hne
  have he := end_eq_of_last hl
  have hl1 : entries s.root_ = E ++ (a, v, p) :: [] := hl
  obtain ⟨hg, hi⟩ := inc_spec hn hp hl1
  have hv : values s.root_ = E.map (fun e => e.2.1) ++ [v] := by
    rw [values_eq_map, hl, List.map_append, List.map_singleton]
  have hs : (E.map (fun e => e.2.1) ++ [v]).Sorted (· < ·) := by
    rw [← hv]
    exact (bst_iff_sorted _).mp hb
  refine ⟨a, v, he, ?_, ?_, ?_, ?_, ?_⟩
  · rw [he, get_end_flag]
    exact hg
  · rw [hv]
    simp
  · intro x hx
    rw [hv, List.mem_append, List.mem_singleton] at hx
    rcases hx with hx | rfl
    · exact le_of_lt ((List.pairwise_append.mp hs).2.2 x hx v (List.mem_singleton_self v))
    · exact le_refl _
  · rw [hv, List.getLast?_concat]
  · rw [he]
    exact hi

/-- C13, amended, on the set {2, 4, 6, 8}: `operator*` on `end()` returns 8. -/
theorem C13_deref_end_unchecked_witness :
    BST sample.root_ ∧ (addrs sample.root_).Nodup ∧ ParentConsistent sample.root_ ∧
      sample.root_ ≠ null ∧
      ∃ a m, sample.end_ = ⟨some a, true⟩ ∧ sample.end_.get sample.root_ = .ok m ∧
        m ∈ values sample.root_ ∧ (∀ x ∈ values sample.root_, x ≤ m) ∧
        (values sample.root_).getLast? = some m ∧
        iterator.inc sample.root_ ⟨some a, false⟩ = .ok sample.end_ :=
  ⟨by decide, by decide, by decide, by decide,
    C13_deref_end_unchecked sample (by decide) (by decide) (by decide) (by decide)⟩

/-- C14, counterexample: `--` on a default-constructed iterator, on `end()` of the empty set
and on `begin()` of the set {2, 4, 6, 8} returns an iterator with a null pointer instead of
failing. -/
theorem C14_counterexample :
    iterator.dec (null : Node Nat) iterator.init = .ok ⟨none, false⟩ ∧
      iterator.dec (Set.init : Set Nat).root_ (Set.init : Set Nat).end_ = .ok ⟨none, false⟩ ∧
      iterator.dec sample.root_ sample.begin = .ok ⟨none, false⟩ :=
  ⟨rfl, rfl, rfl⟩

/-- C14, amended: `operator--` has no check. On a default-constructed iterator and on `end()`
of an empty set it clears the end flag and keeps the null pointer; on `begin()` of a
non-empty set (distinct node addresses, consistent parent links) it returns the null pointer
too; the iterator obtained is not flagged end, and `++` on it throws. -/
theorem C14_retreat_unchecked (s : Set α) (hn : (addrs s.root_).Nodup)
    (hp : ParentConsistent s.root_) :
    iterator.dec s.root_ iterator.init = .ok ⟨none, false⟩ ∧
      (s.root_ = null → iterator.dec s.root_ s.end_ = .ok ⟨none, false⟩) ∧
      (s.root_ ≠ null → iterator.dec s.root_ s.begin = .ok ⟨none, false⟩) ∧
      iterator.inc s.root_ ⟨none, false⟩ = .error "Null pointer in ++" := by
  refine ⟨rfl, fun h => ?_, fun h => ?_, rfl⟩
  · simp [iterator.dec, Set.end_, h, GetRight, ptr]
  · cases he : entries s.root_ with
    | nil => exact absurd (entries_eq_nil.mp he) h
    | cons e E =>
      obtain ⟨a, v, p⟩ := e
      rw [begin_eq_of_first he]
      have h1 : entries s.root_ = [] ++ (a, v, p) :: E := by simp [he]
      exact dec_spec hn hp h1

/-- C14, amended, on the set {2, 4, 6, 8}. -/
theorem C14_retreat_unchecked_witness :
    (addrs sample.root_).Nodup ∧ ParentConsistent sample.root_ ∧
      iterator.dec sample.root_ iterator.init = .ok ⟨none, false⟩ ∧
      iterator.inc sample.root_ ⟨none, false⟩ = .error "Null pointer in ++" :=
  ⟨by decide, by decide,
    (C14_retreat_unchecked sample (by decide) (by decide)).1,
    (C14_retreat_unchecked sample (by decide) (by decide)).2.2.2⟩

/-- C18, counterexample: `split` of the parent-consistent tree with root 5 (address 1) and
left child 3 at the absent key 4 returns a left half whose root still has `parent` equal to
address 1. -/
theorem C18_counterexample :
    ParentConsistent pair35 ∧ 4 ∉ values pair35 ∧
      ∃ res, split pair35 4 = .ok res ∧ res.1.ptr = some 2 ∧ res.1.parentOf = some 1 :=
  ⟨by decide, by decide, _, rfl, rfl, rfl⟩

/-- C18, amended: for every parent-consistent tree and every key not stored in it, `split`
returns two halves in which every node is parent-consistent with its children, and the half
whose root is the root of the tree has an absent `parent` at its root. -/
theorem C18_split_parents [LinearOrder α] (t : Node α) (k : α) (hp : ParentConsistent t)
    (hk : k ∉ values t) :
    ∃ res, split t k = .ok res ∧ ChildrenLinked res.1 ∧ ChildrenLinked res.2 ∧
      ((res.1.ptr = t.ptr ∧ res.1.parentOf = none) ∨
        (res.2.ptr = t.ptr ∧ res.2.parentOf = none)) := by
  obtain ⟨res, e⟩ := split_ok t k hk
  obtain ⟨c1, c2⟩ := childrenLinked_split hp.1 e
  refine ⟨res, e, c1, c2, ?_⟩
  cases t with
  | null =>
    simp [split] at e
    subst e
    exact Or.inl ⟨rfl, rfl⟩
  | node a v pr par l r =>
    have hpar : par = none := hp.2
    subst hpar
    unfold split at e
    split_ifs at e with h1 h2
    · cases hl : split l k with
      | error x => simp [hl] at e
      | ok rl =>
        simp only [hl, Except.ok.injEq] at e
        subst e
        exact Or.inr ⟨rfl, rfl⟩
    · cases hr : split r k with
      | error x => simp [hr] at e
      | ok rr =>
        simp only [hr, Except.ok.injEq] at e
        subst e
        exact Or.inl ⟨rfl, rfl⟩

/-- C18, amended, on the tree with root 5 and left child 3, split at 4. -/
theorem C18_split_parents_witness :
    ParentConsistent pair35 ∧ 4 ∉ values pair35 ∧
      ∃ res, split pair35 4 = .ok res ∧ ChildrenLinked res.1 ∧ ChildrenLinked res.2 ∧
        ((res.1.ptr = pair35.ptr ∧ res.1.parentOf = none) ∨
          (res.2.ptr = pair35.ptr ∧ res.2.parentOf = none)) :=
  ⟨by decide, by decide, C18_split_parents pair35 4 (by decide) (by decide)⟩

end Results

end Treap
